import Mathlib

/-!
Verification of the RotorNet packet-level simulator (rotor-sim).

This file gives a shallow embedding of the simulator's core, translated
from the C++ sources (`config.h`, `topology.h`, `voq.h`, `simulator.cpp`,
`workload_generator.h`), and proves or refutes the frozen claims about it.

Modelling conventions:
 * C++ `double` values (times in microseconds/milliseconds, rates) are
   modelled as exact rationals (`ℚ`); all double arithmetic performed by
   the program on the values exercised here (additions, multiplications,
   divisions by powers of ten, `fmod`) is exact, so the model is faithful
   on those runs.
 * C++ `int`/`uint64_t` counters and identifiers are modelled as `ℕ`
   (all values in play are nonnegative).
 * `std::map<int, std::queue<uint64_t>>` virtual output queues are
   modelled as total functions `ℕ → List ℕ` (front of the queue = head of
   the list); the C++ map auto-creates empty queues on first access,
   which a total function models directly.
 * The Mersenne-twister draws of `selectIntermediateRack` are modelled by
   an oracle stream of naturals; `uniform_int_distribution(0, R-1)` draw
   number `i` is modelled as `stream i % R` (the distribution's contract
   is exactly that each draw lies in `[0, R-1]`).
-/

namespace RotorSim

/-- Embedding of `SimConfig` (config.h).  Fields keep the source's names;
`double` fields are rationals, `int` fields naturals (the simulator only
ever uses nonnegative values), `random_seed` is unused by the model (the
rng is abstracted by an oracle stream). -/
structure SimConfig where
  num_racks : ℕ := 16
  num_switches : ℕ := 4
  hosts_per_rack : ℕ := 32
  link_rate_gbps : ℚ := 10
  mtu_bytes : ℕ := 1500
  propagation_delay_us : ℚ := 1/2
  queue_threshold : ℕ := 3
  reconfig_delay_us : ℚ := 20
  duty_cycle : ℚ := 9/10
  workload : String := "datamining"
  load_factor : ℚ := 1/4
  sim_time_ms : ℚ := 1000
  random_seed : ℤ := 42
  flow_file : String := ""
  save_flows : Bool := false
  flow_output_file : String := "flows.csv"
  queue_size_pkts : ℕ := 100
deriving Repr

/-- `SimConfig::getNumMatchings`: `ceil((num_racks - 1) / num_switches)`,
computed on naturals (the C++ double ceil is exact for these ranges). -/
def SimConfig.getNumMatchings (cfg : SimConfig) : ℕ :=
  (cfg.num_racks - 1 + cfg.num_switches - 1) / cfg.num_switches

/-- `SimConfig::getSlotTime`: `reconfig_delay_us / (1 - duty_cycle)`. -/
def SimConfig.getSlotTime (cfg : SimConfig) : ℚ :=
  cfg.reconfig_delay_us / (1 - cfg.duty_cycle)

/-- `SimConfig::getCycleTime`: `getNumMatchings() * getSlotTime()`. -/
def SimConfig.getCycleTime (cfg : SimConfig) : ℚ :=
  (cfg.getNumMatchings : ℚ) * cfg.getSlotTime

/-! ## Topology: round-robin matchings (`RotorTopology::generateMatchings`)

The C++ loop, for `n = num_racks` and each `m < n - 1`, builds
`matching[0] = 0` and, for `1 ≤ i < n`,
`partner = (n - i + m) % (n - 1); if (partner == 0) partner = n - 1;`.
`n - i + m` never underflows (`i < n`), so natural subtraction is exact. -/

/-- The partner computed for position `i ≥ 1` of matching `m` on `n` racks. -/
def rrPartner (n m i : ℕ) : ℕ :=
  let partner := (n - i + m) % (n - 1)
  if partner = 0 then n - 1 else partner

/-- One matching of the round-robin construction, as the list
`[matching[0], …, matching[n-1]]`. -/
def rrMatching (n m : ℕ) : List ℕ :=
  (List.range n).map fun i => if i = 0 then 0 else rrPartner n m i

/-- The image of rack `i` under matching `m` (entry `matching[i]`). -/
def matchAt (n m i : ℕ) : ℕ :=
  if i = 0 then 0 else rrPartner n m i

theorem rrMatching_length (n m : ℕ) : (rrMatching n m).length = n := by
  simp [rrMatching]

theorem rrMatching_getD (n m i : ℕ) (hi : i < n) (d : ℕ) :
    (rrMatching n m).getD i d = matchAt n m i := by
  simp [rrMatching, matchAt, List.getD_eq_getElem?_getD, hi]

/-- `all_matchings`: the `n - 1` matchings in construction order. -/
def allMatchings (n : ℕ) : List (List ℕ) :=
  (List.range (n - 1)).map (rrMatching n)

/-- The matchings owned by switch `s`: the C++ loop
`for (m = s; m < n-1; m += S)` collects exactly the `m < n-1` with
`m % S = s` (for `s < S`), in increasing order. -/
def switchMatchings (n S s : ℕ) : List (List ℕ) :=
  ((List.range (n - 1)).filter fun m => m % S = s).map (rrMatching n)

/-! ### Arithmetic facts about the round-robin construction -/

theorem rrPartner_pos (n m i : ℕ) (hn : 2 ≤ n) : 1 ≤ rrPartner n m i := by
  unfold rrPartner
  by_cases h : (n - i + m) % (n - 1) = 0 <;> simp [h] <;> omega

theorem rrPartner_le (n m i : ℕ) (hn : 2 ≤ n) : rrPartner n m i ≤ n - 1 := by
  unfold rrPartner
  by_cases h : (n - i + m) % (n - 1) = 0
  · simp [h]
  · simp [h]
    have := Nat.mod_lt (n - i + m) (show 0 < n - 1 by omega)
    omega

theorem rrPartner_mod (n m i : ℕ) (hn : 2 ≤ n) :
    rrPartner n m i % (n - 1) = (n - i + m) % (n - 1) := by
  unfold rrPartner
  by_cases h : (n - i + m) % (n - 1) = 0
  · simp [h, Nat.mod_self]
  · have hlt : (n - i + m) % (n - 1) < n - 1 :=
      Nat.mod_lt _ (by omega)
    simp [h, Nat.mod_eq_of_lt hlt]

/-- Two values in `[1, k]` that agree mod `k` are equal. -/
theorem mod_inj_on_Icc (k a b : ℕ) (hk : 1 ≤ k) (ha1 : 1 ≤ a) (hak : a ≤ k)
    (hb1 : 1 ≤ b) (hbk : b ≤ k) (h : a % k = b % k) : a = b := by
  by_cases hA : a = k
  · by_cases hB : b = k
    · omega
    · exfalso
      rw [hA, Nat.mod_self, Nat.mod_eq_of_lt (show b < k by omega)] at h
      omega
  · by_cases hB : b = k
    · exfalso
      rw [hB, Nat.mod_self, Nat.mod_eq_of_lt (show a < k by omega)] at h
      omega
    · rwa [Nat.mod_eq_of_lt (show a < k by omega),
        Nat.mod_eq_of_lt (show b < k by omega)] at h

/-- Rack `i ≥ 1` and its partner sum to `m + 1` modulo `n - 1`. -/
theorem add_rrPartner_mod (n m i : ℕ) (hn : 2 ≤ n) (hi1 : 1 ≤ i) (hin : i < n) :
    (i + rrPartner n m i) % (n - 1) = (m + 1) % (n - 1) := by
  have h1 : i + (n - i + m) = (n - 1) + (m + 1) := by omega
  calc (i + rrPartner n m i) % (n - 1)
      = (i % (n - 1) + rrPartner n m i % (n - 1)) % (n - 1) := by
        rw [Nat.add_mod]
    _ = (i % (n - 1) + (n - i + m) % (n - 1)) % (n - 1) := by
        rw [rrPartner_mod n m i hn]
    _ = (i + (n - i + m)) % (n - 1) := by rw [← Nat.add_mod]
    _ = ((n - 1) + (m + 1)) % (n - 1) := by rw [h1]
    _ = (m + 1) % (n - 1) := Nat.add_mod_left _ _

/-- Characterisation of the matching relation for racks `i, j ≥ 1`:
matching `m` maps `i` to `j` iff `i + j ≡ m + 1 (mod n - 1)`. -/
theorem matchAt_eq_iff (n m i j : ℕ) (hn : 2 ≤ n) (hi1 : 1 ≤ i) (hin : i < n)
    (hj1 : 1 ≤ j) (hjn : j < n) :
    matchAt n m i = j ↔ (i + j) % (n - 1) = (m + 1) % (n - 1) := by
  have hne : i ≠ 0 := by omega
  constructor
  · rintro rfl
    simpa [matchAt, hne] using add_rrPartner_mod n m i hn hi1 hin
  · intro h
    have hadd := add_rrPartner_mod n m i hn hi1 hin
    have hmod : rrPartner n m i % (n - 1) = j % (n - 1) := by
      have : (i + rrPartner n m i) % (n - 1) = (i + j) % (n - 1) := by
        rw [hadd, h]
      exact Nat.ModEq.add_left_cancel' i this
    have := mod_inj_on_Icc (n - 1) (rrPartner n m i) j (by omega)
      (rrPartner_pos n m i hn) (rrPartner_le n m i hn) hj1 (by omega) hmod
    simpa [matchAt, hne]

theorem matchAt_lt (n m i : ℕ) (hn : 2 ≤ n) : matchAt n m i < n := by
  unfold matchAt
  by_cases h : i = 0
  · simp [h]; omega
  · simp [h]
    have := rrPartner_le n m i hn
    omega

theorem matchAt_involutive (n m i : ℕ) (hn : 2 ≤ n) (hin : i < n) :
    matchAt n m (matchAt n m i) = i := by
  by_cases h0 : i = 0
  · simp [h0, matchAt]
  · have hi1 : 1 ≤ i := by omega
    set j := matchAt n m i with hj
    have hj1 : 1 ≤ j := by
      simpa [matchAt, h0, hj] using rrPartner_pos n m i hn
    have hjn : j < n := by
      have := matchAt_lt n m i hn
      omega
    have hpair : (i + j) % (n - 1) = (m + 1) % (n - 1) :=
      (matchAt_eq_iff n m i j hn hi1 hin hj1 hjn).mp rfl
    exact (matchAt_eq_iff n m j i hn hj1 hjn hi1 hin).mpr
      (by rwa [Nat.add_comm j i])

theorem matchAt_ne_zero (n m i : ℕ) (hn : 2 ≤ n) (hi1 : 1 ≤ i) :
    matchAt n m i ≠ 0 := by
  have := rrPartner_pos n m i hn
  unfold matchAt
  simp only [show i ≠ 0 by omega, if_false]
  omega

/-- The unique matching index pairing `i` and `j`. -/
def pairIndex (n i j : ℕ) : ℕ :=
  if (i + j) % (n - 1) = 0 then n - 2 else (i + j) % (n - 1) - 1

theorem matchAt_eq_iff_pairIndex (n m i j : ℕ) (hn : 2 ≤ n) (hm : m < n - 1)
    (hi1 : 1 ≤ i) (hin : i < n) (hj1 : 1 ≤ j) (hjn : j < n) :
    matchAt n m i = j ↔ m = pairIndex n i j := by
  rw [matchAt_eq_iff n m i j hn hi1 hin hj1 hjn]
  unfold pairIndex
  by_cases h0 : (i + j) % (n - 1) = 0
  · simp only [h0, if_true]
    constructor
    · intro h
      have hdvd : (n - 1) ∣ (m + 1) := Nat.dvd_of_mod_eq_zero h.symm
      have hle : n - 1 ≤ m + 1 := Nat.le_of_dvd (by omega) hdvd
      omega
    · rintro rfl
      have hms : (n - 2 + 1) % (n - 1) = 0 := by
        rw [show n - 2 + 1 = n - 1 by omega]
        exact Nat.mod_self _
      rw [hms]
  · simp only [h0, if_false]
    have hlt : (i + j) % (n - 1) < n - 1 := Nat.mod_lt _ (by omega)
    constructor
    · intro h
      have hm1 : (m + 1) % (n - 1) ≠ 0 := by rw [← h]; exact h0
      have : m + 1 < n - 1 ∨ m + 1 = n - 1 := by omega
      rcases this with hcase | hcase
      · rw [Nat.mod_eq_of_lt hcase] at h
        omega
      · rw [hcase, Nat.mod_self] at hm1
        omega
    · rintro rfl
      have hm1 : (i + j) % (n - 1) - 1 + 1 = (i + j) % (n - 1) := by omega
      rw [hm1, Nat.mod_eq_of_lt hlt]

theorem pairIndex_lt (n i j : ℕ) (hn : 2 ≤ n) : pairIndex n i j < n - 1 := by
  unfold pairIndex
  by_cases h0 : (i + j) % (n - 1) = 0
  · simp [h0]; omega
  · have hlt : (i + j) % (n - 1) < n - 1 := Nat.mod_lt _ (by omega)
    simp [h0]; omega

/-- Every pair of racks `1 ≤ i < j < n` is matched in exactly one of the
`n - 1` matchings. -/
theorem pair_in_exactly_one_matching (n i j : ℕ) (hn : 2 ≤ n) (hi1 : 1 ≤ i)
    (hij : i < j) (hjn : j < n) :
    ((List.range (n - 1)).countP fun m => matchAt n m i = j) = 1 := by
  have hcongr : ((List.range (n - 1)).countP fun m => matchAt n m i = j)
      = (List.range (n - 1)).countP fun m => m = pairIndex n i j := by
    apply List.countP_congr
    intro m hm
    rw [List.mem_range] at hm
    simp only [decide_eq_true_eq]
    exact matchAt_eq_iff_pairIndex n m i j hn hm hi1 (by omega) (by omega) hjn
  rw [hcongr]
  have : ((List.range (n - 1)).countP fun m => m = pairIndex n i j)
      = (List.range (n - 1)).count (pairIndex n i j) := by
    apply List.countP_congr
    intro m _
    simp [List.count, beq_iff_eq]
  rw [this]
  exact List.count_eq_one_of_mem (List.nodup_range _)
    (List.mem_range.mpr (pairIndex_lt n i j hn))

/-- C2, counterexample.  At the default `R = num_racks = 16` the claim
fails: the unordered pair `{0, 1}` appears in none (not exactly one) of
the `R - 1 = 15` matchings, because the construction maps rack 0 to
itself in every matching (`matching[0] = 0`); moreover matching 0 has the
fixed point rack 8 (`matching[8] = 8`), a fixed point that does not
involve rack 0, so the map is not "a permutation with no fixed points
except where the construction explicitly pairs rack 0". -/
theorem C2_counterexample :
    ((List.range 15).countP fun m => matchAt 16 m 0 = 1 ∨ matchAt 16 m 1 = 0) = 0
    ∧ (0 : ℕ) ≠ 1
    ∧ matchAt 16 0 8 = 8 ∧ (8 : ℕ) ≠ 0 := by
  refine ⟨by decide, by decide, by decide, by decide⟩

/-- C2, amended.  What the construction actually guarantees, for every
`R = n ≥ 2` and any switch count `S`: (a) every matching is an involutive
permutation of the racks; (b) rack 0 is a fixed point of every matching —
the construction never pairs rack 0 with another rack; (c) every
unordered pair `{i, j}` of *nonzero* racks appears in exactly one of the
`R - 1` matchings; (d) the fixed points among nonzero racks are exactly
those `i` with `2·i ≡ m + 1 (mod R - 1)`; (e) the table entry at
position `i` is `matchAt`; (f) each per-switch table holds only matchings
of the construction. -/
theorem C2_amended (n S : ℕ) (hn : 2 ≤ n) :
    (∀ m i, m < n - 1 → i < n →
      matchAt n m i < n ∧ matchAt n m (matchAt n m i) = i)
    ∧ (∀ m, m < n - 1 → matchAt n m 0 = 0)
    ∧ (∀ m i, m < n - 1 → 1 ≤ i → i < n → matchAt n m i ≠ 0)
    ∧ (∀ i j, 1 ≤ i → i < j → j < n →
        ((List.range (n - 1)).countP fun m => matchAt n m i = j) = 1)
    ∧ (∀ m i, m < n - 1 → 1 ≤ i → i < n →
        (matchAt n m i = i ↔ (i + i) % (n - 1) = (m + 1) % (n - 1)))
    ∧ (∀ m i, m < n - 1 → i < n → (rrMatching n m).getD i 0 = matchAt n m i)
    ∧ (∀ s M, M ∈ switchMatchings n S s → ∃ m, m < n - 1 ∧ M = rrMatching n m) := by
  refine ⟨?_, ?_, ?_, ?_, ?_, ?_, ?_⟩
  · intro m i _ hi
    exact ⟨matchAt_lt n m i hn, matchAt_involutive n m i hn hi⟩
  · intro m _
    simp [matchAt]
  · intro m i _ hi1 _
    exact matchAt_ne_zero n m i hn hi1
  · intro i j hi1 hij hjn
    exact pair_in_exactly_one_matching n i j hn hi1 hij hjn
  · intro m i _ hi1 hin
    exact matchAt_eq_iff n m i i hn hi1 hin hi1 hin
  · intro m i _ hi
    exact rrMatching_getD n m i hi 0
  · intro s M hM
    unfold switchMatchings at hM
    rcases List.mem_map.mp hM with ⟨m, hm, rfl⟩
    rcases List.mem_filter.mp hm with ⟨hmr, _⟩
    exact ⟨m, List.mem_range.mp hmr, rfl⟩

/-- Witness for the amended C2 theorem, instantiated at the default
configuration `R = 16`, `S = 4`. -/
theorem C2_amended_witness :
    matchAt 16 0 (matchAt 16 0 1) = 1
    ∧ matchAt 16 0 0 = 0
    ∧ ((List.range 15).countP fun m => matchAt 16 m 1 = 2) = 1 :=
  ⟨((C2_amended 16 4 (by norm_num)).1 0 1 (by norm_num) (by norm_num)).2,
   (C2_amended 16 4 (by norm_num)).2.1 0 (by norm_num),
   (C2_amended 16 4 (by norm_num)).2.2.2.1 1 2 (by norm_num) (by norm_num)
     (by norm_num)⟩

/-! ## Topology timing (`RotorTopology::getConnectedRack` and friends)

Simulated times are C++ doubles; they are modelled as rationals, on which
the arithmetic the program performs is exact.  `fmod` below agrees with
C's `fmod` on the nonnegative arguments used by the simulator. -/

/-- `fmod a b = a - b * ⌊a / b⌋` (C's `fmod` for nonnegative `a`,
positive `b`). -/
def fmod (a b : ℚ) : ℚ := a - b * ⌊a / b⌋

/-- `time_in_cycle = fmod(time_us, cycle_time_us)`. -/
def timeInCycle (cfg : SimConfig) (time_us : ℚ) : ℚ :=
  fmod time_us cfg.getCycleTime

/-- `matching_idx = static_cast<int>(time_in_cycle / slot_time_us) %
num_matchings` (the cast truncates; `time_in_cycle ≥ 0` on all uses). -/
def matchingIdx (cfg : SimConfig) (time_us : ℚ) : ℕ :=
  (⌊timeInCycle cfg time_us / cfg.getSlotTime⌋).toNat % cfg.getNumMatchings

/-- `time_in_slot = fmod(time_in_cycle, slot_time_us)`. -/
def timeInSlot (cfg : SimConfig) (time_us : ℚ) : ℚ :=
  fmod (timeInCycle cfg time_us) cfg.getSlotTime

/-- `RotorTopology::getConnectedRack`: `-1` encodes "no rack" exactly as
in the source (link down during reconfiguration, or the bounds check on
`matchings[switch_id]` fails). -/
def getConnectedRack (cfg : SimConfig) (src_rack switch_id : ℕ)
    (time_us : ℚ) : ℤ :=
  if timeInSlot cfg time_us < cfg.reconfig_delay_us then -1
  else if switch_id < cfg.num_switches ∧
      matchingIdx cfg time_us <
        (switchMatchings cfg.num_racks cfg.num_switches switch_id).length then
    (((switchMatchings cfg.num_racks cfg.num_switches switch_id).getD
        (matchingIdx cfg time_us) []).getD src_rack 0 : ℤ)
  else -1

/-- `RotorTopology::hasDirectPath`: some switch connects `src` to `dst`. -/
def hasDirectPath (cfg : SimConfig) (src_rack dst_rack : ℕ)
    (time_us : ℚ) : Bool :=
  (List.range cfg.num_switches).any fun s =>
    getConnectedRack cfg src_rack s time_us == (dst_rack : ℤ)

/-- `RotorTopology::getNextDirectPathTime`: the C++ loop probes
`check_time = current + k * slot_time` while `check_time < current +
cycle_time`; since `cycle_time = num_matchings * slot_time` exactly, it
probes `k = 0, …, num_matchings - 1` and falls back to
`current + cycle_time`. -/
def getNextDirectPathTime (cfg : SimConfig) (src_rack dst_rack : ℕ)
    (current_time_us : ℚ) : ℚ :=
  match (List.range cfg.getNumMatchings).find? (fun k =>
      hasDirectPath cfg src_rack dst_rack
        (current_time_us + k * cfg.getSlotTime)) with
  | some k => current_time_us + k * cfg.getSlotTime
  | none => current_time_us + cfg.getCycleTime

/-- A small concrete configuration (4 racks, 2 switches, defaults
otherwise: `reconfig_delay = 20 µs`, `duty_cycle = 0.9`, so
`slot = 200 µs`, 2 matchings per cycle, `cycle = 400 µs`).  Switch 0 owns
matchings 0 and 2; switch 1 owns only matching 1. -/
def cfgC4 : SimConfig := { num_racks := 4, num_switches := 2 }

/-- C4, counterexample.  At `t = 220 µs` the slot offset is exactly the
reconfiguration delay (`time_in_slot = 20 ≥ reconfig_delay`), yet the
query for switch 1 returns "no rack" (`-1`): `matching_idx = 1` but
switch 1 owns a single matching, so the bounds check fails.  This
refutes the claimed "returns no rack if and only if
`time_in_cycle mod slot_time < reconfig_delay`". -/
theorem C4_counterexample :
    getConnectedRack cfgC4 1 1 220 = -1
    ∧ ¬ (timeInSlot cfgC4 220 < cfgC4.reconfig_delay_us) := by
  refine ⟨by with_unfolding_all decide, by with_unfolding_all decide⟩

/-- C4, amended.  The query returns "no rack" iff the slot offset is
inside the reconfiguration window *or* `matching_idx` is out of range for
the switch's own table (possible whenever `num_switches` does not divide
`num_racks - 1`, e.g. switch 3 at the default `R = 16`, `S = 4`);
otherwise — in particular at exactly `reconfig_delay` into a slot — it
returns the scheduled partner `matchings[switch_id][matching_idx][src]`. -/
theorem C4_amended (cfg : SimConfig) (src_rack switch_id : ℕ) (t : ℚ)
    (hsw : switch_id < cfg.num_switches) :
    (getConnectedRack cfg src_rack switch_id t = -1 ↔
      (timeInSlot cfg t < cfg.reconfig_delay_us ∨
        (switchMatchings cfg.num_racks cfg.num_switches switch_id).length ≤
          matchingIdx cfg t))
    ∧ (cfg.reconfig_delay_us ≤ timeInSlot cfg t →
        matchingIdx cfg t <
          (switchMatchings cfg.num_racks cfg.num_switches switch_id).length →
        getConnectedRack cfg src_rack switch_id t =
          (((switchMatchings cfg.num_racks cfg.num_switches switch_id).getD
              (matchingIdx cfg t) []).getD src_rack 0 : ℤ))
    ∧ (timeInSlot cfg t = cfg.reconfig_delay_us →
        matchingIdx cfg t <
          (switchMatchings cfg.num_racks cfg.num_switches switch_id).length →
        getConnectedRack cfg src_rack switch_id t =
          (((switchMatchings cfg.num_racks cfg.num_switches switch_id).getD
              (matchingIdx cfg t) []).getD src_rack 0 : ℤ)) := by
  refine ⟨?_, ?_, ?_⟩
  · unfold getConnectedRack
    by_cases hrc : timeInSlot cfg t < cfg.reconfig_delay_us
    · rw [if_pos hrc]
      exact ⟨fun _ => Or.inl hrc, fun _ => rfl⟩
    · rw [if_neg hrc]
      by_cases hidx : matchingIdx cfg t <
          (switchMatchings cfg.num_racks cfg.num_switches switch_id).length
      · rw [if_pos ⟨hsw, hidx⟩]
        constructor
        · intro habs
          have hge := Int.natCast_nonneg
            (((switchMatchings cfg.num_racks cfg.num_switches
              switch_id).getD (matchingIdx cfg t) []).getD src_rack 0)
          omega
        · intro h
          rcases h with h | h
          · exact absurd h hrc
          · omega
      · rw [if_neg (fun h => hidx h.2)]
        exact ⟨fun _ => Or.inr (by omega), fun _ => rfl⟩
  · intro h1 h2
    unfold getConnectedRack
    rw [if_neg (not_lt.mpr h1), if_pos ⟨hsw, h2⟩]
  · intro h1 h2
    unfold getConnectedRack
    rw [if_neg (by rw [h1]; exact lt_irrefl _), if_pos ⟨hsw, h2⟩]

/-- Witness for the amended C4 theorem at a concrete query (`cfgC4`,
source rack 1, switch 0, `t = 25 µs`, a live instant of slot 0). -/
theorem C4_amended_witness :
    getConnectedRack cfgC4 1 0 25 = -1 ↔
      (timeInSlot cfgC4 25 < cfgC4.reconfig_delay_us ∨
        (switchMatchings 4 2 0).length ≤ matchingIdx cfgC4 25) :=
  (C4_amended cfgC4 1 0 25 (by norm_num [cfgC4])).1

/-! ## `Simulator::selectIntermediateRack` (rejection sampling)

The Mersenne-twister draws are abstracted by a stream of naturals;
`uniform_int_distribution(0, num_racks - 1)` guarantees each draw lies in
`[0, num_racks - 1]`, modelled by reducing the stream value modulo
`num_racks`.  The C++ `do { … } while` has no fuel; the model adds an
explicit fuel argument, `none` marking the diverging runs. -/

/-- Draw number `i` of `uniform_int_distribution(0, num_racks-1)(rng)`. -/
def uniformDraw (num_racks : ℕ) (stream : ℕ → ℕ) (i : ℕ) : ℕ :=
  stream i % num_racks

/-- `Simulator::selectIntermediateRack(src, dst)`: repeatedly draw an
`intermediate` until it differs from both `src` and `dst`. -/
def selectIntermediateRack (num_racks src dst : ℕ) (stream : ℕ → ℕ) :
    ℕ → ℕ → Option ℕ
  | _, 0 => none
  | pos, fuel + 1 =>
    let intermediate := uniformDraw num_racks stream pos
    if intermediate = src ∨ intermediate = dst then
      selectIntermediateRack num_racks src dst stream (pos + 1) fuel
    else some intermediate

/-- C10.  (a) Whatever the rejection loop returns is a rack in
`[0, num_racks)` distinct from both `src` and `dst`.  (b) As soon as some
draw at index `i` avoids `{src, dst}` — an event of probability 1 for a
uniform stream when `num_racks ≥ 3` — the loop terminates within
`i + 1 - pos` iterations.  (c) `num_racks ≥ 3` is necessary: with fewer
racks every draw collides with `src` or `dst` and the loop never exits. -/
theorem C10_select_intermediate (num_racks src dst : ℕ) (stream : ℕ → ℕ) :
    (∀ fuel pos r, 0 < num_racks →
      selectIntermediateRack num_racks src dst stream pos fuel = some r →
      r < num_racks ∧ r ≠ src ∧ r ≠ dst)
    ∧ (∀ i pos, pos ≤ i →
      uniformDraw num_racks stream i ≠ src →
      uniformDraw num_racks stream i ≠ dst →
      ∃ r, selectIntermediateRack num_racks src dst stream pos
        (i + 1 - pos) = some r)
    ∧ (num_racks < 3 → src < num_racks → dst < num_racks → src ≠ dst →
      ∀ fuel pos,
        selectIntermediateRack num_racks src dst stream pos fuel = none) := by
  refine ⟨?_, ?_, ?_⟩
  · intro fuel
    induction fuel with
    | zero => intro pos r _ h; simp [selectIntermediateRack] at h
    | succ f ih =>
      intro pos r hR h
      rw [selectIntermediateRack] at h
      by_cases hrej : uniformDraw num_racks stream pos = src ∨
          uniformDraw num_racks stream pos = dst
      · rw [if_pos hrej] at h
        exact ih (pos + 1) r hR h
      · rw [if_neg hrej] at h
        cases h
        push_neg at hrej
        exact ⟨Nat.mod_lt _ hR, hrej.1, hrej.2⟩
  · have key : ∀ d pos,
        uniformDraw num_racks stream (pos + d) ≠ src →
        uniformDraw num_racks stream (pos + d) ≠ dst →
        ∃ r, selectIntermediateRack num_racks src dst stream pos (d + 1)
          = some r := by
      intro d
      induction d with
      | zero =>
        intro pos hs hd
        rw [Nat.add_zero] at hs hd
        refine ⟨uniformDraw num_racks stream pos, ?_⟩
        rw [selectIntermediateRack, if_neg (by tauto)]
      | succ k ih =>
        intro pos hs hd
        rw [selectIntermediateRack]
        by_cases hrej : uniformDraw num_racks stream pos = src ∨
            uniformDraw num_racks stream pos = dst
        · rw [if_pos hrej]
          exact ih (pos + 1)
            (by rwa [show pos + 1 + k = pos + (k + 1) by omega])
            (by rwa [show pos + 1 + k = pos + (k + 1) by omega])
        · exact ⟨_, by rw [if_neg hrej]⟩
    intro i pos hpos hs hd
    have h1 : pos + (i - pos) = i := by omega
    have h2 : i + 1 - pos = (i - pos) + 1 := by omega
    rw [h2]
    exact key (i - pos) pos (by rwa [h1]) (by rwa [h1])
  · intro h3 hsrc hdst hne fuel
    induction fuel with
    | zero => intro pos; rfl
    | succ f ih =>
      intro pos
      have hR : num_racks = 2 := by omega
      have hdr := Nat.mod_lt (stream pos) (show 0 < num_racks by omega)
      have hrej : uniformDraw num_racks stream pos = src ∨
          uniformDraw num_racks stream pos = dst := by
        unfold uniformDraw
        unfold uniformDraw at hdr
        omega
      rw [selectIntermediateRack, if_pos hrej]
      exact ih (pos + 1)

/-- Witness for C10: with 4 racks, `src = 0`, `dst = 1` and the identity
stream, the draw at index 2 is good, the loop returns within 3
iterations, and every returned value is a valid intermediate. -/
theorem C10_select_intermediate_witness :
    (∃ r, selectIntermediateRack 4 0 1 (fun i => i) 0 (2 + 1 - 0) = some r)
    ∧ ((2 : ℕ) < 4 ∧ (2 : ℕ) ≠ 0 ∧ (2 : ℕ) ≠ 1) :=
  ⟨(C10_select_intermediate 4 0 1 (fun i => i)).2.1 2 0 (by omega)
      (by decide) (by decide),
   (C10_select_intermediate 4 0 1 (fun i => i)).1 3 0 2 (by omega) (by decide)⟩

/-! ## Virtual output queues (`voq.h`)

`std::map<int, std::queue<uint64_t>>` is modelled as a total function
`ℕ → List ℕ` (list head = queue front, append = `push`); the map's
auto-creation of missing keys on `operator[]` is exactly a total function
with empty default.  The map's key iteration (used by
`getNonempty*Destinations`) visits keys in increasing order; initialised
keys are `0, …, num_racks - 1` except the own rack, whose queues stay
empty forever, so iterating `0, …, num_racks - 1` and filtering nonempty
queues reproduces it.  (Keys outside that range can only appear via
nonsensical enqueue targets; such queues never obtain a direct path, so
the transmitter ignores them either way.) -/

inductive VoqType where
  | LOCAL
  | NONLOCAL
deriving DecidableEq, Repr

structure VirtualOutputQueues where
  rack_id : ℕ
  num_racks : ℕ
  queue_capacity : ℕ
  local_voqs : ℕ → List ℕ
  nonlocal_voqs : ℕ → List ℕ
  total_packets : ℕ

namespace VirtualOutputQueues

/-- The parameterized constructor: all queues start empty. -/
def init (rack num_racks capacity : ℕ) : VirtualOutputQueues :=
  ⟨rack, num_racks, capacity, fun _ => [], fun _ => [], 0⟩

/-- `enqueueLocal`: fail on own rack or full queue, else append. -/
def enqueueLocal (v : VirtualOutputQueues) (packet_id dst_rack : ℕ) :
    Bool × VirtualOutputQueues :=
  if dst_rack = v.rack_id then (false, v)
  else if v.queue_capacity ≤ (v.local_voqs dst_rack).length then (false, v)
  else (true, { v with
    local_voqs := Function.update v.local_voqs dst_rack
      (v.local_voqs dst_rack ++ [packet_id]),
    total_packets := v.total_packets + 1 })

/-- `enqueueNonlocal`: fail on own rack or full queue, else append. -/
def enqueueNonlocal (v : VirtualOutputQueues) (packet_id final_dst : ℕ) :
    Bool × VirtualOutputQueues :=
  if final_dst = v.rack_id then (false, v)
  else if v.queue_capacity ≤ (v.nonlocal_voqs final_dst).length then (false, v)
  else (true, { v with
    nonlocal_voqs := Function.update v.nonlocal_voqs final_dst
      (v.nonlocal_voqs final_dst ++ [packet_id]),
    total_packets := v.total_packets + 1 })

/-- `enqueue` dispatcher over the queue kind. -/
def enqueue (v : VirtualOutputQueues) (packet_id nexthop : ℕ) :
    VoqType → Bool × VirtualOutputQueues
  | .LOCAL => v.enqueueLocal packet_id nexthop
  | .NONLOCAL => v.enqueueNonlocal packet_id nexthop

/-- `dequeueLocal`: pop the front of the queue toward `dst_rack`
(`none` = the C++ `false` with the out-parameter untouched). -/
def dequeueLocal (v : VirtualOutputQueues) (dst_rack : ℕ) :
    Option (ℕ × VirtualOutputQueues) :=
  match v.local_voqs dst_rack with
  | [] => none
  | packet_id :: rest =>
    some (packet_id, { v with
      local_voqs := Function.update v.local_voqs dst_rack rest,
      total_packets := v.total_packets - 1 })

/-- `dequeueNonlocal`. -/
def dequeueNonlocal (v : VirtualOutputQueues) (final_dst : ℕ) :
    Option (ℕ × VirtualOutputQueues) :=
  match v.nonlocal_voqs final_dst with
  | [] => none
  | packet_id :: rest =>
    some (packet_id, { v with
      nonlocal_voqs := Function.update v.nonlocal_voqs final_dst rest,
      total_packets := v.total_packets - 1 })

/-- `dequeue` dispatcher over the queue kind. -/
def dequeue (v : VirtualOutputQueues) (dst_rack : ℕ) :
    VoqType → Option (ℕ × VirtualOutputQueues)
  | .LOCAL => v.dequeueLocal dst_rack
  | .NONLOCAL => v.dequeueNonlocal dst_rack

/-- `getLocalQueueSize`. -/
def getLocalQueueSize (v : VirtualOutputQueues) (dst_rack : ℕ) : ℕ :=
  (v.local_voqs dst_rack).length

/-- `getNonlocalQueueSize`. -/
def getNonlocalQueueSize (v : VirtualOutputQueues) (final_dst : ℕ) : ℕ :=
  (v.nonlocal_voqs final_dst).length

/-- `getNonemptyLocalDestinations` (map iteration in increasing key
order, keeping destinations with a nonempty queue). -/
def getNonemptyLocalDestinations (v : VirtualOutputQueues) : List ℕ :=
  (List.range v.num_racks).filter fun d => !(v.local_voqs d).isEmpty

/-- `getNonemptyNonlocalDestinations`. -/
def getNonemptyNonlocalDestinations (v : VirtualOutputQueues) : List ℕ :=
  (List.range v.num_racks).filter fun d => !(v.nonlocal_voqs d).isEmpty

/-- The queue selected by a kind and destination (for stating specs). -/
def queueOf (v : VirtualOutputQueues) : VoqType → ℕ → List ℕ
  | .LOCAL, d => v.local_voqs d
  | .NONLOCAL, d => v.nonlocal_voqs d

end VirtualOutputQueues

/-- C7.  For a VOQ whose target queue respects the capacity bound (an
invariant every reachable VOQ state satisfies), `enqueue(pkt, dst, kind)`
returns `false` iff `dst` is the own rack or the `(kind, dst)` queue
already holds `queue_capacity` packets; on failure the object is
returned unchanged (every queue keeps its contents); on success the
packet id is appended at the tail of the `(kind, dst)` queue, every
other queue is unchanged, and the total count increments. -/
theorem C7_enqueue_spec (v : VirtualOutputQueues) (packet_id dst : ℕ)
    (ty : VoqType) (hcap : (v.queueOf ty dst).length ≤ v.queue_capacity) :
    ((v.enqueue packet_id dst ty).1 = false ↔
      dst = v.rack_id ∨ (v.queueOf ty dst).length = v.queue_capacity)
    ∧ ((v.enqueue packet_id dst ty).1 = false →
        (v.enqueue packet_id dst ty).2 = v)
    ∧ ((v.enqueue packet_id dst ty).1 = true →
        (v.enqueue packet_id dst ty).2.queueOf ty dst
            = v.queueOf ty dst ++ [packet_id]
        ∧ (∀ ty' d', (ty', d') ≠ (ty, dst) →
            (v.enqueue packet_id dst ty).2.queueOf ty' d' = v.queueOf ty' d')
        ∧ (v.enqueue packet_id dst ty).2.total_packets = v.total_packets + 1
        ∧ (v.enqueue packet_id dst ty).2.rack_id = v.rack_id) := by
  cases ty
  · -- LOCAL
    simp only [VirtualOutputQueues.queueOf] at hcap ⊢
    by_cases h1 : dst = v.rack_id
    · have he : v.enqueue packet_id dst .LOCAL = (false, v) := by
        simp [VirtualOutputQueues.enqueue, VirtualOutputQueues.enqueueLocal, h1]
      rw [he]
      exact ⟨⟨fun _ => Or.inl h1, fun _ => rfl⟩, fun _ => rfl,
        fun h => by simp at h⟩
    · by_cases h2 : v.queue_capacity ≤ (v.local_voqs dst).length
      · have he : v.enqueue packet_id dst .LOCAL = (false, v) := by
          simp [VirtualOutputQueues.enqueue, VirtualOutputQueues.enqueueLocal,
            h1, h2]
        rw [he]
        exact ⟨⟨fun _ => Or.inr (by omega), fun _ => rfl⟩, fun _ => rfl,
          fun h => by simp at h⟩
      · have he : v.enqueue packet_id dst .LOCAL = (true, { v with
            local_voqs := Function.update v.local_voqs dst
              (v.local_voqs dst ++ [packet_id]),
            total_packets := v.total_packets + 1 }) := by
          simp [VirtualOutputQueues.enqueue, VirtualOutputQueues.enqueueLocal,
            h1, h2]
        rw [he]
        refine ⟨⟨fun h => by simp at h, fun h => ?_⟩, fun h => by simp at h,
          fun _ => ⟨Function.update_same _ _ _, ?_, rfl, rfl⟩⟩
        · exfalso
          rcases h with h | h
          · exact h1 h
          · omega
        · intro ty' d' hne
          cases ty'
          · exact Function.update_noteq (by simpa using hne) _ _
          · rfl
  · -- NONLOCAL
    simp only [VirtualOutputQueues.queueOf] at hcap ⊢
    by_cases h1 : dst = v.rack_id
    · have he : v.enqueue packet_id dst .NONLOCAL = (false, v) := by
        simp [VirtualOutputQueues.enqueue, VirtualOutputQueues.enqueueNonlocal,
          h1]
      rw [he]
      exact ⟨⟨fun _ => Or.inl h1, fun _ => rfl⟩, fun _ => rfl,
        fun h => by simp at h⟩
    · by_cases h2 : v.queue_capacity ≤ (v.nonlocal_voqs dst).length
      · have he : v.enqueue packet_id dst .NONLOCAL = (false, v) := by
          simp [VirtualOutputQueues.enqueue,
            VirtualOutputQueues.enqueueNonlocal, h1, h2]
        rw [he]
        exact ⟨⟨fun _ => Or.inr (by omega), fun _ => rfl⟩, fun _ => rfl,
          fun h => by simp at h⟩
      · have he : v.enqueue packet_id dst .NONLOCAL = (true, { v with
            nonlocal_voqs := Function.update v.nonlocal_voqs dst
              (v.nonlocal_voqs dst ++ [packet_id]),
            total_packets := v.total_packets + 1 }) := by
          simp [VirtualOutputQueues.enqueue,
            VirtualOutputQueues.enqueueNonlocal, h1, h2]
        rw [he]
        refine ⟨⟨fun h => by simp at h, fun h => ?_⟩, fun h => by simp at h,
          fun _ => ⟨Function.update_same _ _ _, ?_, rfl, rfl⟩⟩
        · exfalso
          rcases h with h | h
          · exact h1 h
          · omega
        · intro ty' d' hne
          cases ty'
          · rfl
          · exact Function.update_noteq (by simpa using hne) _ _

/-- Witness for C7 at a concrete VOQ (rack 0 of 4, capacity 2, all
queues empty): enqueueing packet 7 toward rack 1 succeeds and appends. -/
theorem C7_enqueue_spec_witness :
    (((VirtualOutputQueues.init 0 4 2).enqueue 7 1 .LOCAL).1 = false ↔
      (1 = 0 ∨ ((VirtualOutputQueues.init 0 4 2).queueOf .LOCAL 1).length = 2)) :=
  (C7_enqueue_spec (VirtualOutputQueues.init 0 4 2) 7 1 .LOCAL (by decide)).1

/-! ## Numeric parsing (models of `stoi` / `stoull` / `stod` and
`istream >>` extraction on well-formed numeral tokens)

`stod` itself rounds to the nearest `double`; here it is modelled as the
exact rational value of the decimal string.  On the strings the program
itself writes (6 significant digits), a value survives the save/load
round trip exactly iff its decimal expansion was not truncated, and the
exact-rational model agrees with the `double` semantics on that
question, since every value held by the program is a `double`
(a dyadic rational) and a dyadic with at most 6 significant decimal
digits is parsed back to itself by `stod`. -/

/-- Numeric value of a decimal digit character. -/
def digitVal (c : Char) : ℕ := c.toNat - 48

/-- Value of a list of decimal digit characters (most significant
first). -/
def parseNatChars (l : List Char) : ℕ :=
  l.foldl (fun a c => a * 10 + digitVal c) 0

/-- `stoi`/`stoull`/`istream >> int` on a numeral token. -/
def parseNat (s : String) : ℕ := parseNatChars s.data

/-- Signed integer parsing (for `random_seed`). -/
def parseInt (s : String) : ℤ :=
  match s.data with
  | '-' :: rest => -(parseNatChars rest : ℤ)
  | l => (parseNatChars l : ℤ)

/-- Split a character list at the first occurrence of `c`. -/
def splitAtChar (c : Char) : List Char → List Char × Option (List Char)
  | [] => ([], none)
  | x :: xs =>
    if x = c then ([], some xs)
    else
      let p := splitAtChar c xs
      (x :: p.1, p.2)

/-- Value of `digits[.digits]` as an exact rational. -/
def parseDecCore (l : List Char) : ℚ :=
  match splitAtChar '.' l with
  | (ip, none) => (parseNatChars ip : ℚ)
  | (ip, some fp) =>
      (parseNatChars ip : ℚ) + (parseNatChars fp : ℚ) / 10 ^ fp.length

/-- Value of an exponent suffix (`+dd`, `-dd` or `dd`). -/
def parseExpPart (l : List Char) : ℤ :=
  match l with
  | '+' :: rest => (parseNatChars rest : ℤ)
  | '-' :: rest => -(parseNatChars rest : ℤ)
  | l => (parseNatChars l : ℤ)

/-- Magnitude part of `stod`: mantissa with optional `e`/`E` exponent. -/
def parseQmag (l : List Char) : ℚ :=
  match splitAtChar 'e' l with
  | (m, some ex) => parseDecCore m * (10 : ℚ) ^ parseExpPart ex
  | (_, none) =>
    match splitAtChar 'E' l with
    | (m, some ex) => parseDecCore m * (10 : ℚ) ^ parseExpPart ex
    | (m, none) => parseDecCore m

/-- `stod` on a well-formed floating-point token, as an exact rational. -/
def parseQchars (l : List Char) : ℚ :=
  match l with
  | '-' :: rest => -(parseQmag rest)
  | l => parseQmag l

/-- `stod` / `istream >> double` on a `String` token. -/
def parseQ (s : String) : ℚ := parseQchars s.data

/-! ## Configuration loading (`SimConfig::loadFromFile`)

The C++ loop extracts whitespace-separated tokens: a key, then — for the
eleven recognised keys only — one value token.  Unrecognised keys
consume no value token, so their value token is re-examined as the next
key (and, being a numeral, matches nothing).  The model takes the token
list of the file.  (One pathological deviation: a recognised key as the
very last token would, in C++11, zero the field through a failed
extraction; the model leaves the configuration unchanged.  No claim
depends on it.) -/

def SimConfig.loadFromFile : SimConfig → List String → SimConfig
  | cfg, [] => cfg
  | cfg, [_] => cfg
  | cfg, key :: v :: rest =>
    if key = "num_racks" then
      SimConfig.loadFromFile { cfg with num_racks := parseNat v } rest
    else if key = "num_switches" then
      SimConfig.loadFromFile { cfg with num_switches := parseNat v } rest
    else if key = "hosts_per_rack" then
      SimConfig.loadFromFile { cfg with hosts_per_rack := parseNat v } rest
    else if key = "link_rate_gbps" then
      SimConfig.loadFromFile { cfg with link_rate_gbps := parseQ v } rest
    else if key = "load_factor" then
      SimConfig.loadFromFile { cfg with load_factor := parseQ v } rest
    else if key = "sim_time_ms" then
      SimConfig.loadFromFile { cfg with sim_time_ms := parseQ v } rest
    else if key = "random_seed" then
      SimConfig.loadFromFile { cfg with random_seed := parseInt v } rest
    else if key = "workload" then
      SimConfig.loadFromFile { cfg with workload :=
        if v = "datamining" ∨ v = "websearch" ∨ v = "hadoop" then v
        else cfg.workload } rest
    else if key = "flow_file" then
      SimConfig.loadFromFile { cfg with flow_file := v } rest
    else if key = "save_flows" then
      SimConfig.loadFromFile { cfg with save_flows :=
        (v == "true" || v == "1") } rest
    else if key = "flow_output_file" then
      SimConfig.loadFromFile { cfg with flow_output_file := v } rest
    else
      SimConfig.loadFromFile cfg (v :: rest)

/-- C8, counterexample.  `loadFromFile` never parses `mtu_bytes` (nor
`propagation_delay_us`, `reconfig_delay_us`, `duty_cycle`,
`queue_size_pkts`, `queue_threshold`): loading a file containing
`mtu_bytes 9000` leaves `mtu_bytes` at its default 1500, not 9000. -/
theorem C8_counterexample :
    (SimConfig.loadFromFile {} ["mtu_bytes", "9000"]).mtu_bytes = 1500
    ∧ (1500 : ℕ) ≠ 9000 := by
  exact ⟨rfl, by decide⟩

/-- C8, amended.  Exactly the eleven keys `num_racks`, `num_switches`,
`hosts_per_rack`, `link_rate_gbps`, `load_factor`, `sim_time_ms`,
`random_seed`, `workload`, `flow_file`, `save_flows`,
`flow_output_file` are applied (each sets its field to the parsed
value); the remaining keys of the claimed external interface —
`mtu_bytes`, `propagation_delay_us`, `reconfig_delay_us`, `duty_cycle`,
`queue_size_pkts`, `queue_threshold` — are silently ignored and leave
the configuration untouched (their fields keep the defaults). -/
theorem C8_amended (cfg : SimConfig) (v : String) :
    (SimConfig.loadFromFile cfg ["num_racks", v]).num_racks = parseNat v
    ∧ (SimConfig.loadFromFile cfg ["num_switches", v]).num_switches
        = parseNat v
    ∧ (SimConfig.loadFromFile cfg ["hosts_per_rack", v]).hosts_per_rack
        = parseNat v
    ∧ (SimConfig.loadFromFile cfg ["link_rate_gbps", v]).link_rate_gbps
        = parseQ v
    ∧ (SimConfig.loadFromFile cfg ["load_factor", v]).load_factor = parseQ v
    ∧ (SimConfig.loadFromFile cfg ["sim_time_ms", v]).sim_time_ms = parseQ v
    ∧ (SimConfig.loadFromFile cfg ["random_seed", v]).random_seed = parseInt v
    ∧ (SimConfig.loadFromFile cfg ["workload", v]).workload
        = (if v = "datamining" ∨ v = "websearch" ∨ v = "hadoop" then v
           else cfg.workload)
    ∧ (SimConfig.loadFromFile cfg ["flow_file", v]).flow_file = v
    ∧ (SimConfig.loadFromFile cfg ["save_flows", v]).save_flows
        = (v == "true" || v == "1")
    ∧ (SimConfig.loadFromFile cfg ["flow_output_file", v]).flow_output_file
        = v
    ∧ SimConfig.loadFromFile cfg ["mtu_bytes", v] = cfg
    ∧ SimConfig.loadFromFile cfg ["propagation_delay_us", v] = cfg
    ∧ SimConfig.loadFromFile cfg ["reconfig_delay_us", v] = cfg
    ∧ SimConfig.loadFromFile cfg ["duty_cycle", v] = cfg
    ∧ SimConfig.loadFromFile cfg ["queue_size_pkts", v] = cfg
    ∧ SimConfig.loadFromFile cfg ["queue_threshold", v] = cfg := by
  refine ⟨rfl, rfl, rfl, rfl, rfl, rfl, rfl, rfl, rfl, rfl, rfl,
    rfl, rfl, rfl, rfl, rfl, rfl⟩

/-! ## Flow and packet records (`flow.h`) -/

inductive FlowType where
  | BULK
  | LOW_LATENCY
deriving DecidableEq, Repr

structure Packet where
  id : ℕ := 0
  flow_id : ℕ := 0
  src_rack : ℕ := 0
  src_host : ℕ := 0
  dst_host : ℕ := 0
  size_bytes : ℕ := 0
  creation_time : ℚ := 0
  sent_time : ℚ := 0
  arrival_time : ℚ := 0
  type : FlowType := .BULK
  dropped : Bool := false
  final_dst : ℕ := 0
  current_dst : ℕ := 0
  current_rack : ℕ := 0
  hop_count : ℕ := 0
deriving DecidableEq, Repr

structure Flow where
  id : ℕ := 0
  src_rack : ℕ := 0
  dst_rack : ℕ := 0
  src_host : ℕ := 0
  dst_host : ℕ := 0
  size_bytes : ℕ := 0
  start_time : ℚ := 0
  completion_time : ℚ := 0
  type : FlowType := .BULK
  packet_ids : List ℕ := []
  packets_sent : ℕ := 0
  packets_received : ℕ := 0
  completed : Bool := false
deriving DecidableEq, Repr

/-- `Flow::getNumPackets`: `(size_bytes + mtu - 1) / mtu`. -/
def Flow.getNumPackets (f : Flow) (mtu : ℕ) : ℕ :=
  (f.size_bytes + mtu - 1) / mtu

/-! ## Discrete-event simulator (`simulator.h` declarations,
`simulator.cpp` definitions)

The `std::map` registries (`flows`, `packets`, `rack_voqs`, `rack_busy`,
`rack_next_free_time`) are total functions with default values; the
event priority queue is a list, `push` appending and pop extracting the
earliest event (first-inserted among simultaneous ones — the C++ heap's
tie order is unspecified, and the concrete runs examined below are
tie-free).  `selectIntermediateRack`'s returned draw is abstracted by
the state's oracle stream (the rejection loop itself is modelled and
verified separately above); `LOW_LATENCY` flows trip an `assert(false)`
in the source and are produced by no workload, so the model covers the
`BULK` path. -/

inductive EventType where
  | FLOW_ARRIVAL
  | PACKET_ARRIVAL
  | PACKET_TRANSMISSION_COMPLETE
deriving DecidableEq, Repr

structure Event where
  type : EventType
  time_us : ℚ
  id : ℕ
deriving DecidableEq, Repr

structure SimState where
  flows : ℕ → Flow
  packets : ℕ → Packet
  voqs : ℕ → VirtualOutputQueues
  rack_busy : ℕ → Bool
  rack_next_free_time : ℕ → ℚ
  event_queue : List Event
  current_time_us : ℚ
  next_packet_id : ℕ
  total_bytes_transmitted : ℕ
  dropped_packets : ℕ
  end_time_us : ℚ
  oracle : ℕ → ℕ
  oracle_pos : ℕ

/-- `Simulator::scheduleEvent`: push onto the event queue. -/
def scheduleEvent (s : SimState) (ty : EventType) (time : ℚ) (id : ℕ) :
    SimState :=
  { s with event_queue := s.event_queue ++ [⟨ty, time, id⟩] }

/-- One iteration of a transmitter selection loop: if the destination
has a direct path, dequeue from its queue and remember the (latest)
selection.  A later eligible destination's dequeue *overwrites* the
selection — the C++ loops in `Simulator::startTransmission` have no
`break`. -/
def scanStep
    (deq : VirtualOutputQueues → ℕ → Option (ℕ × VirtualOutputQueues))
    (pred : ℕ → Bool) (acc : VirtualOutputQueues × Option (ℕ × ℕ))
    (dest : ℕ) : VirtualOutputQueues × Option (ℕ × ℕ) :=
  if pred dest then
    match deq acc.1 dest with
    | some (pid, v') => (v', some (dest, pid))
    | none => acc
  else acc

/-- One full selection pass over a destination list. -/
def scanDequeue
    (deq : VirtualOutputQueues → ℕ → Option (ℕ × VirtualOutputQueues))
    (pred : ℕ → Bool) (dests : List ℕ) (v : VirtualOutputQueues) :
    VirtualOutputQueues × Option (ℕ × ℕ) :=
  dests.foldl (scanStep deq pred) (v, none)

/-- `Simulator::startTransmission`. -/
def startTransmission (cfg : SimConfig) (s : SimState) (rack_id : ℕ) :
    SimState :=
  let myVoq := s.voqs rack_id
  let localDests := myVoq.getNonemptyLocalDestinations
  let nonLocalDests := myVoq.getNonemptyNonlocalDestinations
  if localDests.isEmpty && nonLocalDests.isEmpty then
    { s with rack_busy := Function.update s.rack_busy rack_id false }
  else
    let p1 := scanDequeue (fun v d => v.dequeueNonlocal d)
      (fun d => hasDirectPath cfg rack_id d s.current_time_us)
      nonLocalDests myVoq
    let p2 := if p1.2.isNone then
        scanDequeue (fun v d => v.dequeueLocal d)
          (fun d => hasDirectPath cfg rack_id d s.current_time_us)
          localDests p1.1
      else p1
    match p2.2 with
    | none =>
      { s with voqs := Function.update s.voqs rack_id p2.1,
               rack_busy := Function.update s.rack_busy rack_id false }
    | some (_, packet_id) =>
      let pkt := s.packets packet_id
      let tx_time_us : ℚ :=
        ((pkt.size_bytes * 8 : ℕ) : ℚ) / (cfg.link_rate_gbps * 1000000000)
          * 1000000
      scheduleEvent
        { s with voqs := Function.update s.voqs rack_id p2.1,
                 rack_busy := Function.update s.rack_busy rack_id true,
                 packets := Function.update s.packets packet_id
                   { pkt with sent_time := s.current_time_us / 1000 } }
        .PACKET_TRANSMISSION_COMPLETE (s.current_time_us + tx_time_us)
        packet_id

/-- `Simulator::shouldUseDirect`. -/
def shouldUseDirect (cfg : SimConfig) (s : SimState) (pkt : Packet)
    (current_rack : ℕ) : Bool :=
  let direct_wait :=
    getNextDirectPathTime cfg current_rack pkt.final_dst s.current_time_us
      - s.current_time_us
  if direct_wait < cfg.getSlotTime then true
  else if cfg.queue_threshold <
      (s.voqs current_rack).getLocalQueueSize pkt.final_dst then false
  else true

/-- The admission part of `Simulator::enqueuePacket` (everything up to
and including the drop bookkeeping); the `Bool` is `queueSuccess`. -/
def admitPacket (cfg : SimConfig) (s : SimState)
    (packet_id current_rack : ℕ) : SimState × Bool :=
  let pkt := s.packets packet_id
  if pkt.hop_count = 1 then
    let pkt1 := { pkt with current_dst := pkt.final_dst }
    let r := (s.voqs current_rack).enqueue packet_id pkt.final_dst .NONLOCAL
    if r.1 then
      ({ s with packets := Function.update s.packets packet_id pkt1,
                voqs := Function.update s.voqs current_rack r.2 }, true)
    else
      ({ s with packets := Function.update s.packets packet_id
                  { pkt1 with dropped := true },
                voqs := Function.update s.voqs current_rack r.2,
                dropped_packets := s.dropped_packets + 1 }, false)
  else if shouldUseDirect cfg s pkt current_rack then
    let pkt1 := { pkt with current_dst := pkt.final_dst }
    let r := (s.voqs current_rack).enqueue packet_id pkt.final_dst .LOCAL
    if r.1 then
      ({ s with packets := Function.update s.packets packet_id pkt1,
                voqs := Function.update s.voqs current_rack r.2 }, true)
    else
      ({ s with packets := Function.update s.packets packet_id
                  { pkt1 with dropped := true },
                voqs := Function.update s.voqs current_rack r.2,
                dropped_packets := s.dropped_packets + 1 }, false)
  else
    let intermediate := s.oracle s.oracle_pos
    let s1 := { s with oracle_pos := s.oracle_pos + 1 }
    let pkt1 := { pkt with current_dst := intermediate }
    let r := (s1.voqs current_rack).enqueue packet_id intermediate .LOCAL
    if r.1 then
      ({ s1 with packets := Function.update s1.packets packet_id pkt1,
                 voqs := Function.update s1.voqs current_rack r.2 }, true)
    else
      ({ s1 with packets := Function.update s1.packets packet_id
                   { pkt1 with dropped := true },
                 voqs := Function.update s1.voqs current_rack r.2,
                 dropped_packets := s1.dropped_packets + 1 }, false)

/-- `Simulator::enqueuePacket`: admit, then — only on success — wake the
transmitter if the rack is idle. -/
def enqueuePacket (cfg : SimConfig) (s : SimState)
    (packet_id current_rack : ℕ) : SimState :=
  let r := admitPacket cfg s packet_id current_rack
  if r.2 then
    if r.1.rack_busy current_rack then r.1
    else startTransmission cfg r.1 current_rack
  else r.1

/-- One iteration of the packet-creation loop in
`Simulator::handleFlowArrival` (state, remaining bytes). -/
def faStep (cfg : SimConfig) (flow_id : ℕ) (st : SimState × ℕ) (_ : ℕ) :
    SimState × ℕ :=
  let s := st.1
  let remaining_bytes := st.2
  let flow := s.flows flow_id
  let pid := s.next_packet_id
  let sz := min cfg.mtu_bytes remaining_bytes
  let pkt : Packet := { id := pid, flow_id := flow_id,
                        src_rack := flow.src_rack,
                        final_dst := flow.dst_rack,
                        src_host := flow.src_host,
                        dst_host := flow.dst_host,
                        size_bytes := sz,
                        creation_time := s.current_time_us / 1000,
                        type := flow.type, dropped := false,
                        hop_count := 0,
                        current_rack := flow.src_rack,
                        current_dst := 0 }
  let s1 := { s with
              next_packet_id := pid + 1,
              flows := Function.update s.flows flow_id
                { flow with packet_ids := flow.packet_ids ++ [pid] },
              packets := Function.update s.packets pid pkt }
  (enqueuePacket cfg s1 pid flow.src_rack, remaining_bytes - sz)

/-- `Simulator::handleFlowArrival` (`current_dst` is uninitialised at
creation in the source and is always assigned by `enqueuePacket` before
any read; the model initialises it to 0). -/
def handleFlowArrival (cfg : SimConfig) (s : SimState) (flow_id : ℕ) :
    SimState :=
  let flow := s.flows flow_id
  let num_packets := flow.getNumPackets cfg.mtu_bytes
  ((List.range num_packets).foldl (faStep cfg flow_id)
    (s, flow.size_bytes)).1

/-- `Simulator::handlePacketTransmissionComplete`. -/
def handlePacketTransmissionComplete (cfg : SimConfig) (s : SimState)
    (packet_id : ℕ) : SimState :=
  let pkt0 := s.packets packet_id
  let current_rack := pkt0.current_rack
  let pkt1 := { pkt0 with hop_count := pkt0.hop_count + 1 }
  let arrival_time := s.current_time_us + cfg.propagation_delay_us
  let next_rack := pkt1.current_dst
  if next_rack = pkt1.final_dst then
    let pkt2 := { pkt1 with arrival_time := arrival_time / 1000 }
    let s1 := { s with
      packets := Function.update s.packets packet_id pkt2,
      total_bytes_transmitted := s.total_bytes_transmitted + pkt2.size_bytes }
    let flow := s1.flows pkt2.flow_id
    let flow1 := { flow with packets_received := flow.packets_received + 1 }
    let flow2 := if flow1.packets_received = flow1.packet_ids.length then
        { flow1 with completed := true, completion_time := pkt2.arrival_time }
      else flow1
    let s2 := { s1 with
      flows := Function.update s1.flows pkt2.flow_id flow2,
      rack_next_free_time := Function.update s1.rack_next_free_time
        current_rack s1.current_time_us }
    startTransmission cfg s2 current_rack
  else
    let pkt2 := { pkt1 with current_dst := pkt1.final_dst,
                            current_rack := next_rack }
    let s1 := { s with packets := Function.update s.packets packet_id pkt2 }
    let s2 := if arrival_time ≤ s1.end_time_us then
        scheduleEvent s1 .PACKET_ARRIVAL arrival_time packet_id
      else s1
    let s3 := { s2 with
      rack_next_free_time := Function.update s2.rack_next_free_time
        current_rack s2.current_time_us }
    startTransmission cfg s3 current_rack

/-- `Simulator::handlePacketArrival`. -/
def handlePacketArrival (cfg : SimConfig) (s : SimState)
    (packet_id : ℕ) : SimState :=
  let pkt := s.packets packet_id
  let current_rack := pkt.current_rack
  if pkt.hop_count = 1 ∧ current_rack ≠ pkt.final_dst then
    let pkt1 := { pkt with current_dst := pkt.final_dst }
    let r := (s.voqs current_rack).enqueue packet_id pkt.final_dst .NONLOCAL
    let s1 := { s with packets := Function.update s.packets packet_id pkt1,
                       voqs := Function.update s.voqs current_rack r.2 }
    if r.1 then
      if s1.rack_busy current_rack then s1
      else startTransmission cfg s1 current_rack
    else
      { s1 with packets := Function.update s1.packets packet_id
                  { pkt1 with dropped := true },
                dropped_packets := s1.dropped_packets + 1 }
  else
    if s.rack_busy current_rack then s
    else startTransmission cfg s current_rack

/-- Extract the earliest event (`priority_queue::top`/`pop` with
`std::greater` on `time_us`; first-inserted among ties). -/
def popMin : List Event → Option (Event × List Event)
  | [] => none
  | e :: es =>
    match popMin es with
    | none => some (e, [])
    | some (e', es') =>
      if e'.time_us < e.time_us then some (e', e :: es')
      else some (e, es)

/-- One iteration of the main loop in `Simulator::run`: stop on an empty
queue or when the head event lies beyond `end_time_us`; otherwise pop,
advance the clock and dispatch.  Returns the dispatched event with the
successor state. -/
def runStep (cfg : SimConfig) (s : SimState) : Option (Event × SimState) :=
  match popMin s.event_queue with
  | none => none
  | some (evt, rest) =>
    if s.end_time_us < evt.time_us then none
    else
      let s1 := { s with event_queue := rest,
                         current_time_us := evt.time_us }
      some (evt, match evt.type with
        | .FLOW_ARRIVAL => handleFlowArrival cfg s1 evt.id
        | .PACKET_ARRIVAL => handlePacketArrival cfg s1 evt.id
        | .PACKET_TRANSMISSION_COMPLETE =>
            handlePacketTransmissionComplete cfg s1 evt.id)

/-- The main loop of `Simulator::run`, bounded by an event-count fuel. -/
def runSim (cfg : SimConfig) : ℕ → SimState → SimState
  | 0, s => s
  | fuel + 1, s =>
    match runStep cfg s with
    | none => s
    | some (_, s') => runSim cfg fuel s'

/-- The sequence of events dispatched by the main loop. -/
def runTrace (cfg : SimConfig) : ℕ → SimState → List Event
  | 0, _ => []
  | fuel + 1, s =>
    match runStep cfg s with
    | none => []
    | some (e, s') => e :: runTrace cfg fuel s'

/-- The state `Simulator::run` enters its main loop with: flows
registered by id, a `FLOW_ARRIVAL` event per flow at `start_time` (ms)
converted to µs, per-rack VOQs, all racks idle, and
`sim_end = sim_time_ms * 1000`. -/
def initState (cfg : SimConfig) (flow_list : List Flow)
    (oracle : ℕ → ℕ) : SimState :=
  { flows := flow_list.foldl (fun f fl => Function.update f fl.id fl)
      (fun _ => {}),
    packets := fun _ => {},
    voqs := fun r => VirtualOutputQueues.init r cfg.num_racks
      cfg.queue_size_pkts,
    rack_busy := fun _ => false,
    rack_next_free_time := fun _ => 0,
    event_queue := flow_list.map fun fl =>
      ⟨.FLOW_ARRIVAL, fl.start_time * 1000, fl.id⟩,
    current_time_us := 0,
    next_packet_id := 0,
    total_bytes_transmitted := 0,
    dropped_packets := 0,
    end_time_us := cfg.sim_time_ms * 1000,
    oracle := oracle,
    oracle_pos := 0 }

/-! ### Observables used by the claims -/

/-- Sum of all VOQ sizes across all racks. -/
def voqSizeSum (s : SimState) (num_racks : ℕ) : ℕ :=
  ((List.range num_racks).map fun r =>
    ((List.range num_racks).map fun d =>
      ((s.voqs r).local_voqs d).length +
        ((s.voqs r).nonlocal_voqs d).length).sum).sum

/-- Total packets delivered, as the flows' `packets_received` sum. -/
def recvSum (s : SimState) (flow_ids : List ℕ) : ℕ :=
  (flow_ids.map fun i => (s.flows i).packets_received).sum

/-- Packets currently in flight: pending transmission-complete or
propagation (packet-arrival) events. -/
def inFlightCount (s : SimState) : ℕ :=
  s.event_queue.countP fun e =>
    e.type == EventType.PACKET_ARRIVAL ||
      e.type == EventType.PACKET_TRANSMISSION_COMPLETE

/-- Pending packet events (transmission or propagation) for one id. -/
def evCount (pid : ℕ) (q : List Event) : ℕ :=
  q.countP fun e =>
    (e.type == EventType.PACKET_ARRIVAL ||
      e.type == EventType.PACKET_TRANSMISSION_COMPLETE) && e.id == pid

/-! ### Concrete runs

`cfgC1`: 4 racks, 2 switches, defaults otherwise except a long
propagation delay (180 µs), `queue_threshold = 0` and a 1 ms horizon.
Slot time 200 µs, 2 matchings per cycle (switch 0: matchings 0 and 2;
switch 1: matching 1).  Three flows: 0: rack 2 → 1 (two packets, arrives
at 25 µs), 1: rack 1 → 2 (two packets, 30 µs), 2: rack 3 → 1 (one
packet, 430 µs).  The second packet of flows 0 and 1 is VLB-routed via
intermediate rack 3 (the oracle draw); both arrive at rack 3 during the
reconfiguration window around 206–211 µs and wait in its nonlocal VOQs
toward racks 1 and 2.  At 430 µs flow 2 wakes rack 3's transmitter while
*both* nonlocal destinations have open direct paths (switch 0: 3↔1,
switch 1: 3↔2): the selection loop, having no `break`, dequeues *both*
head packets but transmits only the last. -/

def cfgC1 : SimConfig :=
  { num_racks := 4, num_switches := 2, propagation_delay_us := 180,
    queue_threshold := 0, sim_time_ms := 1 }

def flowsC1 : List Flow :=
  [{ id := 0, src_rack := 2, dst_rack := 1, size_bytes := 3000,
     start_time := 1/40 },
   { id := 1, src_rack := 1, dst_rack := 2, size_bytes := 3000,
     start_time := 3/100 },
   { id := 2, src_rack := 3, dst_rack := 1, size_bytes := 1500,
     start_time := 43/100 }]

/-- The state at the event boundary right after the 7th event
(the `FLOW_ARRIVAL` of flow 2 at 430 µs). -/
def c1State : SimState := runSim cfgC1 7 (initState cfgC1 flowsC1 fun _ => 3)

/-- C1 (code bug).  At the event boundary after the 7th event of this
run, 5 packets were created, none delivered, none dropped, one in
flight, yet the VOQs hold only 3 packets: the conservation equation
`queued = created - delivered - dropped - in flight` fails (3 ≠ 4).
Packet 1, dequeued by the overwriting selection loop of
`startTransmission`, has simply vanished: it sits in no VOQ, has no
pending event, is not dropped, and its flow received nothing. -/
theorem C1_conservation_violated :
    voqSizeSum c1State 4 = 3
    ∧ c1State.next_packet_id = 5
    ∧ recvSum c1State [0, 1, 2] = 0
    ∧ c1State.dropped_packets = 0
    ∧ inFlightCount c1State = 1
    ∧ voqSizeSum c1State 4 ≠
        c1State.next_packet_id - recvSum c1State [0, 1, 2]
          - c1State.dropped_packets - inFlightCount c1State
    ∧ (c1State.packets 1).dropped = false
    ∧ (c1State.packets 1).hop_count = 1
    ∧ (∀ r, r < 4 → ∀ d, d < 4 →
        ¬ (1 ∈ (c1State.voqs r).local_voqs d)
        ∧ ¬ (1 ∈ (c1State.voqs r).nonlocal_voqs d))
    ∧ evCount 1 c1State.event_queue = 0 := by
  with_unfolding_all decide

/-- `cfgC3`: like `cfgC1` but with the default 0.5 µs propagation
delay.  One flow rack 1 → 2 of two packets at 30 µs; its second packet
is VLB-routed via rack 3 and delivered on its second hop at 32.9 µs. -/
def cfgC3 : SimConfig :=
  { num_racks := 4, num_switches := 2, queue_threshold := 0,
    sim_time_ms := 1 }

def flowsC3 : List Flow :=
  [{ id := 0, src_rack := 1, dst_rack := 2, size_bytes := 3000,
     start_time := 3/100 }]

/-- The state after the 4th event: packet 1 has just been delivered. -/
def c3State : SimState := runSim cfgC3 4 (initState cfgC3 flowsC3 fun _ => 3)

/-- C3, counterexample.  Packet 1 is delivered (its bytes are counted,
its flow's `packets_received` incremented) with `hop_count = 2`, but
`current_rack` still holds the intermediate rack 3, not
`final_dst = 2`: the delivery path never updates `current_rack`.  So
"`hop_count = 2` implies `current_rack = final_dst`" is false at this
reachable event boundary. -/
theorem C3_counterexample :
    (c3State.packets 1).hop_count = 2
    ∧ (c3State.packets 1).current_rack = 3
    ∧ (c3State.packets 1).final_dst = 2
    ∧ (c3State.packets 1).current_rack ≠ (c3State.packets 1).final_dst
    ∧ (c3State.flows 0).packets_received = 1 := by
  with_unfolding_all decide

/-- `cfgC6`: 4 racks, 1 switch, horizon `sim_time_ms = 0.023`
(`sim_end = 23 µs`).  One single-packet flow rack 1 → 3 arriving at
22 µs; rack 1 has a direct path to rack 3 at that instant, so a
transmission completing at 23.2 µs — past the horizon — is scheduled. -/
def cfgC6 : SimConfig :=
  { num_racks := 4, num_switches := 1, sim_time_ms := 23/1000 }

def flowsC6 : List Flow :=
  [{ id := 0, src_rack := 1, dst_rack := 3, size_bytes := 1500,
     start_time := 11/500 }]

def c6State : SimState := runSim cfgC6 1 (initState cfgC6 flowsC6 fun _ => 0)

/-- C6, counterexample.  After the first event of this run the queue
holds a `PACKET_TRANSMISSION_COMPLETE` at 23.2 µs, beyond
`sim_end = 23 µs`: events past the horizon *are* enqueued (only
`PACKET_ARRIVAL` scheduling is horizon-guarded).  The run nevertheless
dispatches nothing past the horizon: its full trace is the single
flow-arrival at 22 µs. -/
theorem C6_counterexample :
    (∃ e ∈ c6State.event_queue, c6State.end_time_us < e.time_us)
    ∧ runTrace cfgC6 5 (initState cfgC6 flowsC6 fun _ => 0)
        = [⟨.FLOW_ARRIVAL, 22, 0⟩] := by
  with_unfolding_all decide

/-! ### The horizon `sim_end` bounds every dispatched event

No handler writes `end_time_us`; the main loop dispatches an event only
after checking its time against the horizon. -/

theorem scheduleEvent_end (s : SimState) (ty : EventType) (t : ℚ) (id : ℕ) :
    (scheduleEvent s ty t id).end_time_us = s.end_time_us := rfl

theorem startTransmission_end (cfg : SimConfig) (s : SimState) (r : ℕ) :
    (startTransmission cfg s r).end_time_us = s.end_time_us := by
  simp only [startTransmission]
  split
  · rfl
  · split <;> rfl

theorem admitPacket_end (cfg : SimConfig) (s : SimState) (pid r : ℕ) :
    (admitPacket cfg s pid r).1.end_time_us = s.end_time_us := by
  simp only [admitPacket]
  split_ifs <;> rfl

theorem enqueuePacket_end (cfg : SimConfig) (s : SimState) (pid r : ℕ) :
    (enqueuePacket cfg s pid r).end_time_us = s.end_time_us := by
  simp only [enqueuePacket]
  split_ifs
  · exact admitPacket_end cfg s pid r
  · rw [startTransmission_end, admitPacket_end]
  · exact admitPacket_end cfg s pid r

theorem faStep_end (cfg : SimConfig) (fid : ℕ) (st : SimState × ℕ) (k : ℕ) :
    (faStep cfg fid st k).1.end_time_us = st.1.end_time_us := by
  simp only [faStep]
  rw [enqueuePacket_end]

theorem handleFlowArrival_end (cfg : SimConfig) (s : SimState) (fid : ℕ) :
    (handleFlowArrival cfg s fid).end_time_us = s.end_time_us := by
  simp only [handleFlowArrival]
  generalize (List.range ((s.flows fid).getNumPackets cfg.mtu_bytes)) = l
  suffices h : ∀ (l : List ℕ) (st : SimState × ℕ),
      ((l.foldl (faStep cfg fid) st).1).end_time_us = st.1.end_time_us by
    exact h l (s, (s.flows fid).size_bytes)
  intro l
  induction l with
  | nil => intro st; rfl
  | cons x xs ih =>
    intro st
    rw [List.foldl_cons, ih, faStep_end]

theorem handlePacketTransmissionComplete_end (cfg : SimConfig)
    (s : SimState) (pid : ℕ) :
    (handlePacketTransmissionComplete cfg s pid).end_time_us
      = s.end_time_us := by
  simp only [handlePacketTransmissionComplete]
  split
  · rw [startTransmission_end]
  · rw [startTransmission_end]
    split <;> rfl

theorem handlePacketArrival_end (cfg : SimConfig) (s : SimState) (pid : ℕ) :
    (handlePacketArrival cfg s pid).end_time_us = s.end_time_us := by
  simp only [handlePacketArrival]
  split_ifs <;> first | rfl | rw [startTransmission_end]

theorem runStep_some (cfg : SimConfig) (s : SimState) (e : Event)
    (s' : SimState) (h : runStep cfg s = some (e, s')) :
    e.time_us ≤ s.end_time_us ∧ s'.end_time_us = s.end_time_us := by
  unfold runStep at h
  cases hp : popMin s.event_queue with
  | none => rw [hp] at h; exact absurd h (by simp)
  | some pr =>
    rcases pr with ⟨evt, rest⟩
    rw [hp] at h
    dsimp only at h
    by_cases hle : s.end_time_us < evt.time_us
    · rw [if_pos hle] at h
      exact absurd h (by simp)
    · rw [if_neg hle] at h
      simp only [Option.some.injEq, Prod.mk.injEq] at h
      rcases h with ⟨rfl, hs'⟩
      refine ⟨not_lt.mp hle, ?_⟩
      rw [← hs']
      cases hty : evt.type
      · exact handleFlowArrival_end _ _ _
      · exact handlePacketArrival_end _ _ _
      · exact handlePacketTransmissionComplete_end _ _ _

/-- C6, amended.  Events beyond the horizon *can* be enqueued (only
`PACKET_ARRIVAL` scheduling checks `sim_end`; see the counterexample),
but the main loop halts on the first head event whose time exceeds
`sim_end`, so every dispatched event — hence every handler execution —
has simulated time at most `sim_end`. -/
theorem C6_amended (cfg : SimConfig) (fuel : ℕ) (s : SimState) (e : Event)
    (he : e ∈ runTrace cfg fuel s) : e.time_us ≤ s.end_time_us := by
  induction fuel generalizing s with
  | zero => simp [runTrace] at he
  | succ f ih =>
    rw [runTrace] at he
    cases hrs : runStep cfg s with
    | none => rw [hrs] at he; simp at he
    | some pr =>
      rcases pr with ⟨e0, s'⟩
      rw [hrs] at he
      rcases List.mem_cons.mp he with rfl | he'
      · exact (runStep_some cfg s e s' hrs).1
      · have := ih s' he'
        rwa [(runStep_some cfg s e0 s' hrs).2] at this

/-- Witness for the amended C6 theorem: in the `cfgC6` run, the single
dispatched event (the flow arrival at 22 µs) respects the 23 µs
horizon. -/
theorem C6_amended_witness :
    (⟨EventType.FLOW_ARRIVAL, 22, 0⟩ : Event).time_us ≤
      (initState cfgC6 flowsC6 fun _ => 0).end_time_us :=
  C6_amended cfgC6 5 (initState cfgC6 flowsC6 fun _ => 0) _
    (by rw [(by with_unfolding_all decide :
        runTrace cfgC6 5 (initState cfgC6 flowsC6 fun _ => 0)
          = [⟨.FLOW_ARRIVAL, 22, 0⟩])]; exact List.mem_singleton.mpr rfl)

/-! ### C5: the direct-vs-VLB admission policy -/

/-- C5.  For a freshly created bulk packet admitted at its source rack
(`hop_count = 0`), with `w` the wait until the next direct slot toward
`final_dst`, `T = slot_time`, `q` the local-queue size toward
`final_dst` and `θ = queue_threshold`:
1. if `w < T` the packet is appended to the local VOQ toward
   `final_dst` and `current_dst := final_dst`;
2. otherwise, if `q > θ`, it is appended to the local VOQ toward the
   intermediate rack drawn by `selectIntermediateRack` (the state's
   oracle draw, which by the C10 theorem lies in
   `{0..R-1} \ {src, final_dst}`) and `current_dst` is set to it;
3. otherwise it is appended to the local VOQ toward `final_dst`.
The per-branch admission hypotheses (target differs from the rack, its
queue below capacity) express that the packet is *admitted*, as the
claim assumes. -/
theorem C5_routing_policy (cfg : SimConfig) (s : SimState)
    (packet_id current_rack : ℕ)
    (hhop : (s.packets packet_id).hop_count = 0)
    (hrid : (s.voqs current_rack).rack_id = current_rack) :
    (getNextDirectPathTime cfg current_rack
        (s.packets packet_id).final_dst s.current_time_us
        - s.current_time_us < cfg.getSlotTime →
      (s.packets packet_id).final_dst ≠ current_rack →
      ((s.voqs current_rack).local_voqs
          (s.packets packet_id).final_dst).length
        < (s.voqs current_rack).queue_capacity →
      ((admitPacket cfg s packet_id current_rack).1.voqs
          current_rack).local_voqs (s.packets packet_id).final_dst
        = (s.voqs current_rack).local_voqs (s.packets packet_id).final_dst
          ++ [packet_id]
      ∧ ((admitPacket cfg s packet_id current_rack).1.packets
          packet_id).current_dst = (s.packets packet_id).final_dst
      ∧ (admitPacket cfg s packet_id current_rack).2 = true)
    ∧ (¬ (getNextDirectPathTime cfg current_rack
          (s.packets packet_id).final_dst s.current_time_us
          - s.current_time_us < cfg.getSlotTime) →
      cfg.queue_threshold < (s.voqs current_rack).getLocalQueueSize
        (s.packets packet_id).final_dst →
      s.oracle s.oracle_pos ≠ current_rack →
      ((s.voqs current_rack).local_voqs (s.oracle s.oracle_pos)).length
        < (s.voqs current_rack).queue_capacity →
      ((admitPacket cfg s packet_id current_rack).1.voqs
          current_rack).local_voqs (s.oracle s.oracle_pos)
        = (s.voqs current_rack).local_voqs (s.oracle s.oracle_pos)
          ++ [packet_id]
      ∧ ((admitPacket cfg s packet_id current_rack).1.packets
          packet_id).current_dst = s.oracle s.oracle_pos
      ∧ (admitPacket cfg s packet_id current_rack).2 = true)
    ∧ (¬ (getNextDirectPathTime cfg current_rack
          (s.packets packet_id).final_dst s.current_time_us
          - s.current_time_us < cfg.getSlotTime) →
      ¬ (cfg.queue_threshold < (s.voqs current_rack).getLocalQueueSize
          (s.packets packet_id).final_dst) →
      (s.packets packet_id).final_dst ≠ current_rack →
      ((s.voqs current_rack).local_voqs
          (s.packets packet_id).final_dst).length
        < (s.voqs current_rack).queue_capacity →
      ((admitPacket cfg s packet_id current_rack).1.voqs
          current_rack).local_voqs (s.packets packet_id).final_dst
        = (s.voqs current_rack).local_voqs (s.packets packet_id).final_dst
          ++ [packet_id]
      ∧ ((admitPacket cfg s packet_id current_rack).1.packets
          packet_id).current_dst = (s.packets packet_id).final_dst
      ∧ (admitPacket cfg s packet_id current_rack).2 = true) := by
  have hh1 : ¬ ((s.packets packet_id).hop_count = 1) := by omega
  refine ⟨?_, ?_, ?_⟩
  · intro hw hne hcap
    have hsd : shouldUseDirect cfg s (s.packets packet_id) current_rack
        = true := by
      unfold shouldUseDirect
      rw [if_pos hw]
    have hne' : ¬ ((s.packets packet_id).final_dst
        = (s.voqs current_rack).rack_id) := by
      rw [hrid]; exact hne
    have hc2 : ¬ ((s.voqs current_rack).queue_capacity ≤
        ((s.voqs current_rack).local_voqs
          (s.packets packet_id).final_dst).length) := not_le.mpr hcap
    simp only [admitPacket, hh1, if_false, hsd, if_true,
      VirtualOutputQueues.enqueue, VirtualOutputQueues.enqueueLocal,
      hne', hc2, ite_false, ite_true]
    simp [Function.update_same]
  · intro hw hq hrne hrcap
    have hsd : shouldUseDirect cfg s (s.packets packet_id) current_rack
        = false := by
      unfold shouldUseDirect
      rw [if_neg hw, if_pos hq]
    have hne' : ¬ (s.oracle s.oracle_pos
        = (s.voqs current_rack).rack_id) := by
      rw [hrid]; exact hrne
    have hc2 : ¬ ((s.voqs current_rack).queue_capacity ≤
        ((s.voqs current_rack).local_voqs
          (s.oracle s.oracle_pos)).length) := not_le.mpr hrcap
    simp only [admitPacket, hh1, if_false, hsd, Bool.false_eq_true,
      VirtualOutputQueues.enqueue, VirtualOutputQueues.enqueueLocal,
      hne', hc2, ite_false, ite_true]
    simp [Function.update_same]
  · intro hw hq hne hcap
    have hsd : shouldUseDirect cfg s (s.packets packet_id) current_rack
        = true := by
      unfold shouldUseDirect
      rw [if_neg hw, if_neg hq]
    have hne' : ¬ ((s.packets packet_id).final_dst
        = (s.voqs current_rack).rack_id) := by
      rw [hrid]; exact hne
    have hc2 : ¬ ((s.voqs current_rack).queue_capacity ≤
        ((s.voqs current_rack).local_voqs
          (s.packets packet_id).final_dst).length) := not_le.mpr hcap
    simp only [admitPacket, hh1, if_false, hsd, if_true,
      VirtualOutputQueues.enqueue, VirtualOutputQueues.enqueueLocal,
      hne', hc2, ite_false, ite_true]
    simp [Function.update_same]

/-- A concrete admission state for the C5 witness: the first packet of
the `cfgC3` flow, present in the registry at rack 1 at time 30 µs,
before any enqueue. -/
def c5State : SimState :=
  { initState cfgC3 flowsC3 (fun _ => 3) with
    packets := Function.update (fun _ => {}) 0
      { id := 0, flow_id := 0, src_rack := 1, final_dst := 2,
        current_rack := 1, hop_count := 0, size_bytes := 1500 },
    next_packet_id := 1,
    current_time_us := 30 }

/-- Witness for C5: at `c5State` the wait to the next direct slot
1 → 2 is a full slot (200 µs) and the local queue is empty, so the
default-direct branch applies: packet 0 is appended to the local VOQ
toward rack 2 with `current_dst = 2`. -/
theorem C5_routing_policy_witness :
    ((admitPacket cfgC3 c5State 0 1).1.voqs 1).local_voqs
        (c5State.packets 0).final_dst
      = (c5State.voqs 1).local_voqs (c5State.packets 0).final_dst ++ [0]
    ∧ ((admitPacket cfgC3 c5State 0 1).1.packets 0).current_dst
      = (c5State.packets 0).final_dst
    ∧ (admitPacket cfgC3 c5State 0 1).2 = true :=
  (C5_routing_policy cfgC3 c5State 0 1 (by with_unfolding_all decide)
      (by with_unfolding_all decide)).2.2
    (by with_unfolding_all decide) (by with_unfolding_all decide)
    (by with_unfolding_all decide) (by with_unfolding_all decide)

/-! ### Behaviour lemmas for the VOQ primitives -/

theorem enqueueLocal_cases (v : VirtualOutputQueues) (pid dst : ℕ) :
    v.enqueueLocal pid dst = (false, v) ∨
    v.enqueueLocal pid dst = (true, { v with
      local_voqs := Function.update v.local_voqs dst
        (v.local_voqs dst ++ [pid]),
      total_packets := v.total_packets + 1 }) := by
  unfold VirtualOutputQueues.enqueueLocal
  split_ifs <;> simp

theorem enqueueNonlocal_cases (v : VirtualOutputQueues) (pid dst : ℕ) :
    v.enqueueNonlocal pid dst = (false, v) ∨
    v.enqueueNonlocal pid dst = (true, { v with
      nonlocal_voqs := Function.update v.nonlocal_voqs dst
        (v.nonlocal_voqs dst ++ [pid]),
      total_packets := v.total_packets + 1 }) := by
  unfold VirtualOutputQueues.enqueueNonlocal
  split_ifs <;> simp

theorem dequeueLocal_spec (v : VirtualOutputQueues) (d : ℕ) :
    (v.local_voqs d = [] ∧ v.dequeueLocal d = none) ∨
    (∃ pid rest, v.local_voqs d = pid :: rest ∧
      v.dequeueLocal d = some (pid, { v with
        local_voqs := Function.update v.local_voqs d rest,
        total_packets := v.total_packets - 1 })) := by
  rcases hq : v.local_voqs d with _ | ⟨p, rest⟩
  · exact Or.inl ⟨rfl, by simp [VirtualOutputQueues.dequeueLocal, hq]⟩
  · exact Or.inr ⟨p, rest, rfl, by simp [VirtualOutputQueues.dequeueLocal, hq]⟩

theorem dequeueNonlocal_spec (v : VirtualOutputQueues) (d : ℕ) :
    (v.nonlocal_voqs d = [] ∧ v.dequeueNonlocal d = none) ∨
    (∃ pid rest, v.nonlocal_voqs d = pid :: rest ∧
      v.dequeueNonlocal d = some (pid, { v with
        nonlocal_voqs := Function.update v.nonlocal_voqs d rest,
        total_packets := v.total_packets - 1 })) := by
  rcases hq : v.nonlocal_voqs d with _ | ⟨p, rest⟩
  · exact Or.inl ⟨rfl, by simp [VirtualOutputQueues.dequeueNonlocal, hq]⟩
  · exact Or.inr ⟨p, rest, rfl,
      by simp [VirtualOutputQueues.dequeueNonlocal, hq]⟩

/-! ### Characterisation of the transmitter selection loops

Queues can only lose their heads (each residual queue is a suffix of
the original), untouched destinations keep their queues, the other
queue kind and the metadata are unchanged, a `none` outcome means
nothing was dequeued at all, and a selected packet was the head of its
queue, whose residual is its tail. -/

theorem scanFold_nonlocal_spec (pred : ℕ → Bool) :
    ∀ (dests : List ℕ), dests.Nodup → ∀ (v : VirtualOutputQueues)
      (sel₀ : Option (ℕ × ℕ)) (out : VirtualOutputQueues × Option (ℕ × ℕ)),
      dests.foldl (scanStep (fun v d => v.dequeueNonlocal d) pred)
        (v, sel₀) = out →
      (∀ d, out.1.nonlocal_voqs d <:+ v.nonlocal_voqs d)
      ∧ (∀ d, d ∉ dests → out.1.nonlocal_voqs d = v.nonlocal_voqs d)
      ∧ out.1.local_voqs = v.local_voqs
      ∧ out.1.rack_id = v.rack_id
      ∧ out.1.num_racks = v.num_racks
      ∧ out.1.queue_capacity = v.queue_capacity
      ∧ (out.2 = none → out.1 = v ∧ sel₀ = none)
      ∧ (∀ dst pid, out.2 = some (dst, pid) →
          sel₀ = some (dst, pid) ∨
          (dst ∈ dests ∧
            v.nonlocal_voqs dst = pid :: out.1.nonlocal_voqs dst)) := by
  intro dests
  induction dests with
  | nil =>
    intro _ v sel₀ out hout
    rw [List.foldl_nil] at hout
    subst hout
    refine ⟨fun d => List.suffix_refl _, fun d _ => rfl, rfl, rfl, rfl, rfl,
      fun h => ⟨rfl, h⟩, fun dst pid h => Or.inl h⟩
  | cons dest rest ih =>
    intro hnd v sel₀ out hout
    rcases List.nodup_cons.mp hnd with ⟨hni, hnd'⟩
    rw [List.foldl_cons] at hout
    by_cases hp : pred dest
    · rcases dequeueNonlocal_spec v dest with ⟨hq, hdq⟩ |
        ⟨pid0, rest0, hq, hdq⟩
      · have hstep : scanStep (fun v d => v.dequeueNonlocal d) pred
            (v, sel₀) dest = (v, sel₀) := by
          simp [scanStep, hp, hdq]
        rw [hstep] at hout
        obtain ⟨i1, i2, i3, i4, i5, i6, i7, i8⟩ := ih hnd' v sel₀ out hout
        refine ⟨i1, fun d hd => i2 d (fun h => hd (List.mem_cons_of_mem _ h)),
          i3, i4, i5, i6, i7, fun dst pid h => ?_⟩
        rcases i8 dst pid h with h' | ⟨hm, hqf⟩
        · exact Or.inl h'
        · exact Or.inr ⟨List.mem_cons_of_mem _ hm, hqf⟩
      · have hstep : scanStep (fun v d => v.dequeueNonlocal d) pred
            (v, sel₀) dest = ({ v with
              nonlocal_voqs := Function.update v.nonlocal_voqs dest rest0,
              total_packets := v.total_packets - 1 },
            some (dest, pid0)) := by
          simp [scanStep, hp, hdq]
        rw [hstep] at hout
        obtain ⟨i1, i2, i3, i4, i5, i6, i7, i8⟩ :=
          ih hnd' _ (some (dest, pid0)) out hout
        dsimp only at i1 i2 i3 i4 i5 i6 i7 i8
        have hupd : ∀ d, d ≠ dest →
            Function.update v.nonlocal_voqs dest rest0 d
              = v.nonlocal_voqs d := fun d hd =>
          Function.update_noteq hd _ _
        refine ⟨?_, ?_, i3, i4, i5, i6, ?_, ?_⟩
        · intro d
          by_cases hde : d = dest
          · subst hde
            have h1 := i1 d
            rw [Function.update_same] at h1
            exact h1.trans (by rw [hq]; exact List.suffix_cons pid0 rest0)
          · have h1 := i1 d
            rwa [hupd d hde] at h1
        · intro d hd
          have hd1 : d ≠ dest := fun h => hd (h ▸ List.mem_cons_self _ _)
          have hd2 : d ∉ rest := fun h => hd (List.mem_cons_of_mem _ h)
          rw [i2 d hd2, hupd d hd1]
        · intro h
          rcases i7 h with ⟨_, habs⟩
          exact absurd habs (by simp)
        · intro dst pid h
          rcases i8 dst pid h with h' | ⟨hm, hqf⟩
          · simp only [Option.some.injEq, Prod.mk.injEq] at h'
            obtain ⟨rfl, rfl⟩ := h'
            refine Or.inr ⟨List.mem_cons_self _ _, ?_⟩
            have hout1 := i2 dest hni
            rw [Function.update_same] at hout1
            rw [hq, hout1]
          · have hdne : dst ≠ dest := fun h => hni (h ▸ hm)
            rw [hupd dst hdne] at hqf
            exact Or.inr ⟨List.mem_cons_of_mem _ hm, hqf⟩
    · have hstep : scanStep (fun v d => v.dequeueNonlocal d) pred
          (v, sel₀) dest = (v, sel₀) := by
        simp [scanStep, hp]
      rw [hstep] at hout
      obtain ⟨i1, i2, i3, i4, i5, i6, i7, i8⟩ := ih hnd' v sel₀ out hout
      refine ⟨i1, fun d hd => i2 d (fun h => hd (List.mem_cons_of_mem _ h)),
        i3, i4, i5, i6, i7, fun dst pid h => ?_⟩
      rcases i8 dst pid h with h' | ⟨hm, hqf⟩
      · exact Or.inl h'
      · exact Or.inr ⟨List.mem_cons_of_mem _ hm, hqf⟩

theorem scanFold_local_spec (pred : ℕ → Bool) :
    ∀ (dests : List ℕ), dests.Nodup → ∀ (v : VirtualOutputQueues)
      (sel₀ : Option (ℕ × ℕ)) (out : VirtualOutputQueues × Option (ℕ × ℕ)),
      dests.foldl (scanStep (fun v d => v.dequeueLocal d) pred)
        (v, sel₀) = out →
      (∀ d, out.1.local_voqs d <:+ v.local_voqs d)
      ∧ (∀ d, d ∉ dests → out.1.local_voqs d = v.local_voqs d)
      ∧ out.1.nonlocal_voqs = v.nonlocal_voqs
      ∧ out.1.rack_id = v.rack_id
      ∧ out.1.num_racks = v.num_racks
      ∧ out.1.queue_capacity = v.queue_capacity
      ∧ (out.2 = none → out.1 = v ∧ sel₀ = none)
      ∧ (∀ dst pid, out.2 = some (dst, pid) →
          sel₀ = some (dst, pid) ∨
          (dst ∈ dests ∧
            v.local_voqs dst = pid :: out.1.local_voqs dst)) := by
  intro dests
  induction dests with
  | nil =>
    intro _ v sel₀ out hout
    rw [List.foldl_nil] at hout
    subst hout
    refine ⟨fun d => List.suffix_refl _, fun d _ => rfl, rfl, rfl, rfl, rfl,
      fun h => ⟨rfl, h⟩, fun dst pid h => Or.inl h⟩
  | cons dest rest ih =>
    intro hnd v sel₀ out hout
    rcases List.nodup_cons.mp hnd with ⟨hni, hnd'⟩
    rw [List.foldl_cons] at hout
    by_cases hp : pred dest
    · rcases dequeueLocal_spec v dest with ⟨hq, hdq⟩ |
        ⟨pid0, rest0, hq, hdq⟩
      · have hstep : scanStep (fun v d => v.dequeueLocal d) pred
            (v, sel₀) dest = (v, sel₀) := by
          simp [scanStep, hp, hdq]
        rw [hstep] at hout
        obtain ⟨i1, i2, i3, i4, i5, i6, i7, i8⟩ := ih hnd' v sel₀ out hout
        refine ⟨i1, fun d hd => i2 d (fun h => hd (List.mem_cons_of_mem _ h)),
          i3, i4, i5, i6, i7, fun dst pid h => ?_⟩
        rcases i8 dst pid h with h' | ⟨hm, hqf⟩
        · exact Or.inl h'
        · exact Or.inr ⟨List.mem_cons_of_mem _ hm, hqf⟩
      · have hstep : scanStep (fun v d => v.dequeueLocal d) pred
            (v, sel₀) dest = ({ v with
              local_voqs := Function.update v.local_voqs dest rest0,
              total_packets := v.total_packets - 1 },
            some (dest, pid0)) := by
          simp [scanStep, hp, hdq]
        rw [hstep] at hout
        obtain ⟨i1, i2, i3, i4, i5, i6, i7, i8⟩ :=
          ih hnd' _ (some (dest, pid0)) out hout
        dsimp only at i1 i2 i3 i4 i5 i6 i7 i8
        have hupd : ∀ d, d ≠ dest →
            Function.update v.local_voqs dest rest0 d
              = v.local_voqs d := fun d hd =>
          Function.update_noteq hd _ _
        refine ⟨?_, ?_, i3, i4, i5, i6, ?_, ?_⟩
        · intro d
          by_cases hde : d = dest
          · subst hde
            have h1 := i1 d
            rw [Function.update_same] at h1
            exact h1.trans (by rw [hq]; exact List.suffix_cons pid0 rest0)
          · have h1 := i1 d
            rwa [hupd d hde] at h1
        · intro d hd
          have hd1 : d ≠ dest := fun h => hd (h ▸ List.mem_cons_self _ _)
          have hd2 : d ∉ rest := fun h => hd (List.mem_cons_of_mem _ h)
          rw [i2 d hd2, hupd d hd1]
        · intro h
          rcases i7 h with ⟨_, habs⟩
          exact absurd habs (by simp)
        · intro dst pid h
          rcases i8 dst pid h with h' | ⟨hm, hqf⟩
          · simp only [Option.some.injEq, Prod.mk.injEq] at h'
            obtain ⟨rfl, rfl⟩ := h'
            refine Or.inr ⟨List.mem_cons_self _ _, ?_⟩
            have hout1 := i2 dest hni
            rw [Function.update_same] at hout1
            rw [hq, hout1]
          · have hdne : dst ≠ dest := fun h => hni (h ▸ hm)
            rw [hupd dst hdne] at hqf
            exact Or.inr ⟨List.mem_cons_of_mem _ hm, hqf⟩
    · have hstep : scanStep (fun v d => v.dequeueLocal d) pred
          (v, sel₀) dest = (v, sel₀) := by
        simp [scanStep, hp]
      rw [hstep] at hout
      obtain ⟨i1, i2, i3, i4, i5, i6, i7, i8⟩ := ih hnd' v sel₀ out hout
      refine ⟨i1, fun d hd => i2 d (fun h => hd (List.mem_cons_of_mem _ h)),
        i3, i4, i5, i6, i7, fun dst pid h => ?_⟩
      rcases i8 dst pid h with h' | ⟨hm, hqf⟩
      · exact Or.inl h'
      · exact Or.inr ⟨List.mem_cons_of_mem _ hm, hqf⟩

/-! ### The reachable-state invariant

`Inv` captures, for every reachable simulator state: local queues hold
only unsent (`hop_count = 0`) created packets, nonlocal queues only
first-hop transit packets already retargeted at `final_dst`; every
pending transmission event is for a packet with `hop_count ≤ 1`
(retargeted when 1), every pending arrival event for a first-hop packet
away from its destination; hop counts never exceed 2 and a hop count of
2 implies the packet's target was its final destination; and every
packet occupies at most one place — one queue slot or one pending
packet event — in the whole system. -/

structure Inv (s : SimState) : Prop where
  localMem : ∀ pid r d, pid ∈ (s.voqs r).local_voqs d →
    pid < s.next_packet_id ∧ (s.packets pid).hop_count = 0
  nonlocalMem : ∀ pid r d, pid ∈ (s.voqs r).nonlocal_voqs d →
    pid < s.next_packet_id ∧ (s.packets pid).hop_count = 1 ∧
      (s.packets pid).current_dst = (s.packets pid).final_dst
  txEv : ∀ e ∈ s.event_queue,
    e.type = EventType.PACKET_TRANSMISSION_COMPLETE →
    e.id < s.next_packet_id ∧
      ((s.packets e.id).hop_count = 0 ∨
        ((s.packets e.id).hop_count = 1 ∧
          (s.packets e.id).current_dst = (s.packets e.id).final_dst))
  paEv : ∀ e ∈ s.event_queue, e.type = EventType.PACKET_ARRIVAL →
    e.id < s.next_packet_id ∧ (s.packets e.id).hop_count = 1 ∧
      (s.packets e.id).current_dst = (s.packets e.id).final_dst ∧
      (s.packets e.id).current_rack ≠ (s.packets e.id).final_dst
  hopLe : ∀ pid, (s.packets pid).hop_count ≤ 2
  hopTwo : ∀ pid, (s.packets pid).hop_count = 2 →
    (s.packets pid).current_dst = (s.packets pid).final_dst
  localCnt : ∀ pid r d, ((s.voqs r).local_voqs d).count pid ≤ 1
  nonlocalCnt : ∀ pid r d, ((s.voqs r).nonlocal_voqs d).count pid ≤ 1
  localLocal : ∀ pid r d r' d', pid ∈ (s.voqs r).local_voqs d →
    pid ∈ (s.voqs r').local_voqs d' → r = r' ∧ d = d'
  localNonlocal : ∀ pid r d r' d', pid ∈ (s.voqs r).local_voqs d →
    pid ∉ (s.voqs r').nonlocal_voqs d'
  nonNon : ∀ pid r d r' d', pid ∈ (s.voqs r).nonlocal_voqs d →
    pid ∈ (s.voqs r').nonlocal_voqs d' → r = r' ∧ d = d'
  memEv : ∀ pid r d,
    (pid ∈ (s.voqs r).local_voqs d ∨ pid ∈ (s.voqs r).nonlocal_voqs d) →
    evCount pid s.event_queue = 0
  evCnt : ∀ pid, evCount pid s.event_queue ≤ 1

theorem suffix_mem {l₁ l₂ : List ℕ} (h : l₁ <:+ l₂) {a : ℕ}
    (ha : a ∈ l₁) : a ∈ l₂ :=
  h.sublist.subset ha

theorem suffix_count_le {l₁ l₂ : List ℕ} (h : l₁ <:+ l₂) (a : ℕ) :
    l₁.count a ≤ l₂.count a :=
  h.sublist.count_le a

theorem evCount_append_pk (p pid : ℕ) (t : ℚ) (q : List Event)
    (ty : EventType) (hty : ty ≠ EventType.FLOW_ARRIVAL) :
    evCount p (q ++ [⟨ty, t, pid⟩])
      = evCount p q + (if pid = p then 1 else 0) := by
  unfold evCount
  rw [List.countP_append]
  congr 1
  cases ty
  · exact absurd rfl hty
  · by_cases hp : pid = p <;> simp [List.countP_cons, hp]
  · by_cases hp : pid = p <;> simp [List.countP_cons, hp]

theorem evCount_append_fa (p fid : ℕ) (t : ℚ) (q : List Event) :
    evCount p (q ++ [⟨EventType.FLOW_ARRIVAL, t, fid⟩]) = evCount p q := by
  unfold evCount
  rw [List.countP_append]
  simp [List.countP_cons]

/-- Shrinking one rack's queues (each queue a suffix of what it was)
and changing the transmitter bookkeeping preserves the invariant. -/
theorem Inv_shrinkVoq {s : SimState} (inv : Inv s) (rack : ℕ)
    (v' : VirtualOutputQueues)
    (hl : ∀ d, v'.local_voqs d <:+ (s.voqs rack).local_voqs d)
    (hn : ∀ d, v'.nonlocal_voqs d <:+ (s.voqs rack).nonlocal_voqs d)
    (busy : ℕ → Bool) :
    Inv { s with voqs := Function.update s.voqs rack v',
                 rack_busy := busy } := by
  have hmeml : ∀ p r d,
      p ∈ ((Function.update s.voqs rack v') r).local_voqs d →
      p ∈ (s.voqs r).local_voqs d := by
    intro p r d hp
    by_cases hr : r = rack
    · subst hr
      rw [Function.update_same] at hp
      exact suffix_mem (hl d) hp
    · rwa [Function.update_noteq hr] at hp
  have hmemn : ∀ p r d,
      p ∈ ((Function.update s.voqs rack v') r).nonlocal_voqs d →
      p ∈ (s.voqs r).nonlocal_voqs d := by
    intro p r d hp
    by_cases hr : r = rack
    · subst hr
      rw [Function.update_same] at hp
      exact suffix_mem (hn d) hp
    · rwa [Function.update_noteq hr] at hp
  refine ⟨?_, ?_, inv.txEv, inv.paEv, inv.hopLe, inv.hopTwo, ?_, ?_, ?_,
    ?_, ?_, ?_, inv.evCnt⟩
  · intro p r d hp
    exact inv.localMem p r d (hmeml p r d hp)
  · intro p r d hp
    exact inv.nonlocalMem p r d (hmemn p r d hp)
  · intro p r d
    dsimp only
    by_cases hr : r = rack
    · subst hr
      rw [Function.update_same]
      exact le_trans (suffix_count_le (hl d) p) (inv.localCnt p r d)
    · rw [Function.update_noteq hr]
      exact inv.localCnt p r d
  · intro p r d
    dsimp only
    by_cases hr : r = rack
    · subst hr
      rw [Function.update_same]
      exact le_trans (suffix_count_le (hn d) p) (inv.nonlocalCnt p r d)
    · rw [Function.update_noteq hr]
      exact inv.nonlocalCnt p r d
  · intro p r d r' d' h1 h2
    exact inv.localLocal p r d r' d' (hmeml p r d h1) (hmeml p r' d' h2)
  · intro p r d r' d' h1 h2
    exact inv.localNonlocal p r d r' d' (hmeml p r d h1) (hmemn p r' d' h2)
  · intro p r d r' d' h1 h2
    exact inv.nonNon p r d r' d' (hmemn p r d h1) (hmemn p r' d' h2)
  · intro p r d hp
    refine inv.memEv p r d ?_
    rcases hp with hp | hp
    · exact Or.inl (hmeml p r d hp)
    · exact Or.inr (hmemn p r d hp)

/-- Dequeuing the head `pid` of one of rack's queues, scheduling its
transmission-complete event and touching only its `sent_time` preserves
the invariant. -/
theorem Inv_transmit {s : SimState} (inv : Inv s) (rack dst pid : ℕ)
    (v' : VirtualOutputQueues) (newpkt : Packet) (t : ℚ) (busy : ℕ → Bool)
    (hl : ∀ d, v'.local_voqs d <:+ (s.voqs rack).local_voqs d)
    (hn : ∀ d, v'.nonlocal_voqs d <:+ (s.voqs rack).nonlocal_voqs d)
    (hsrc : ((s.voqs rack).local_voqs dst = pid :: v'.local_voqs dst ∧
              v'.nonlocal_voqs = (s.voqs rack).nonlocal_voqs)
          ∨ ((s.voqs rack).nonlocal_voqs dst = pid :: v'.nonlocal_voqs dst ∧
              v'.local_voqs = (s.voqs rack).local_voqs))
    (hpkt : newpkt.hop_count = (s.packets pid).hop_count ∧
            newpkt.current_dst = (s.packets pid).current_dst ∧
            newpkt.final_dst = (s.packets pid).final_dst ∧
            newpkt.current_rack = (s.packets pid).current_rack) :
    Inv { s with voqs := Function.update s.voqs rack v',
                 rack_busy := busy,
                 packets := Function.update s.packets pid newpkt,
                 event_queue := s.event_queue ++
                   [⟨EventType.PACKET_TRANSMISSION_COMPLETE, t, pid⟩] } := by
  have hpid_old : pid ∈ (s.voqs rack).local_voqs dst ∨
      pid ∈ (s.voqs rack).nonlocal_voqs dst := by
    rcases hsrc with ⟨hq, _⟩ | ⟨hq, _⟩
    · exact Or.inl (by rw [hq]; exact List.mem_cons_self _ _)
    · exact Or.inr (by rw [hq]; exact List.mem_cons_self _ _)
  have hpidN : pid < s.next_packet_id := by
    rcases hpid_old with h | h
    · exact (inv.localMem pid rack dst h).1
    · exact (inv.nonlocalMem pid rack dst h).1
  have hhop : (s.packets pid).hop_count = 0 ∨
      ((s.packets pid).hop_count = 1 ∧
        (s.packets pid).current_dst = (s.packets pid).final_dst) := by
    rcases hpid_old with h | h
    · exact Or.inl (inv.localMem pid rack dst h).2
    · exact Or.inr (inv.nonlocalMem pid rack dst h).2
  have hev0 : evCount pid s.event_queue = 0 := inv.memEv pid rack dst hpid_old
  have hfield : ∀ p, (Function.update s.packets pid newpkt p).hop_count
        = (s.packets p).hop_count
      ∧ (Function.update s.packets pid newpkt p).current_dst
        = (s.packets p).current_dst
      ∧ (Function.update s.packets pid newpkt p).final_dst
        = (s.packets p).final_dst
      ∧ (Function.update s.packets pid newpkt p).current_rack
        = (s.packets p).current_rack := by
    intro p
    by_cases hp : p = pid
    · subst hp
      rw [Function.update_same]
      exact hpkt
    · rw [Function.update_noteq hp]
      exact ⟨rfl, rfl, rfl, rfl⟩
  have hmeml : ∀ p r d, p ∈ ((Function.update s.voqs rack v') r).local_voqs d
      → p ∈ (s.voqs r).local_voqs d := by
    intro p r d hp
    by_cases hr : r = rack
    · subst hr
      rw [Function.update_same] at hp
      exact suffix_mem (hl d) hp
    · rwa [Function.update_noteq hr] at hp
  have hmemn : ∀ p r d,
      p ∈ ((Function.update s.voqs rack v') r).nonlocal_voqs d
      → p ∈ (s.voqs r).nonlocal_voqs d := by
    intro p r d hp
    by_cases hr : r = rack
    · subst hr
      rw [Function.update_same] at hp
      exact suffix_mem (hn d) hp
    · rwa [Function.update_noteq hr] at hp
  have hnotin : ∀ r d,
      pid ∉ ((Function.update s.voqs rack v') r).local_voqs d ∧
      pid ∉ ((Function.update s.voqs rack v') r).nonlocal_voqs d := by
    intro r d
    constructor
    · intro hp
      have hpold := hmeml pid r d hp
      rcases hsrc with ⟨hq, hother⟩ | ⟨hq, hother⟩
      · obtain ⟨he1, he2⟩ := inv.localLocal pid r d rack dst hpold
          (by rw [hq]; exact List.mem_cons_self _ _)
        rw [he1, he2, Function.update_same] at hp
        have hcnt := inv.localCnt pid rack dst
        rw [hq, List.count_cons_self] at hcnt
        exact absurd (List.count_pos_iff.mpr hp) (by omega)
      · exact inv.localNonlocal pid r d rack dst hpold
          (by rw [hq]; exact List.mem_cons_self _ _)
    · intro hp
      have hpold := hmemn pid r d hp
      rcases hsrc with ⟨hq, hother⟩ | ⟨hq, hother⟩
      · exact inv.localNonlocal pid rack dst r d
          (by rw [hq]; exact List.mem_cons_self _ _) hpold
      · obtain ⟨he1, he2⟩ := inv.nonNon pid r d rack dst hpold
          (by rw [hq]; exact List.mem_cons_self _ _)
        rw [he1, he2, Function.update_same] at hp
        have hcnt := inv.nonlocalCnt pid rack dst
        rw [hq, List.count_cons_self] at hcnt
        exact absurd (List.count_pos_iff.mpr hp) (by omega)
  refine ⟨?_, ?_, ?_, ?_, ?_, ?_, ?_, ?_, ?_, ?_, ?_, ?_, ?_⟩
  · intro p r d hp
    have hold := inv.localMem p r d (hmeml p r d hp)
    exact ⟨hold.1, by rw [(hfield p).1]; exact hold.2⟩
  · intro p r d hp
    have hold := inv.nonlocalMem p r d (hmemn p r d hp)
    refine ⟨hold.1, by rw [(hfield p).1]; exact hold.2.1, ?_⟩
    rw [(hfield p).2.1, (hfield p).2.2.1]
    exact hold.2.2
  · intro e he htype
    rcases List.mem_append.mp he with he' | he'
    · have hold := inv.txEv e he' htype
      refine ⟨hold.1, ?_⟩
      rw [(hfield e.id).1, (hfield e.id).2.1, (hfield e.id).2.2.1]
      exact hold.2
    · rcases List.mem_singleton.mp he' with rfl
      refine ⟨hpidN, ?_⟩
      rw [(hfield pid).1, (hfield pid).2.1, (hfield pid).2.2.1]
      exact hhop
  · intro e he htype
    rcases List.mem_append.mp he with he' | he'
    · have hold := inv.paEv e he' htype
      refine ⟨hold.1, by rw [(hfield e.id).1]; exact hold.2.1, ?_, ?_⟩
      · rw [(hfield e.id).2.1, (hfield e.id).2.2.1]
        exact hold.2.2.1
      · rw [(hfield e.id).2.2.2, (hfield e.id).2.2.1]
        exact hold.2.2.2
    · rcases List.mem_singleton.mp he' with rfl
      exact absurd htype (by simp)
  · intro p
    rw [(hfield p).1]
    exact inv.hopLe p
  · intro p hp
    rw [(hfield p).1] at hp
    rw [(hfield p).2.1, (hfield p).2.2.1]
    exact inv.hopTwo p hp
  · intro p r d
    dsimp only
    by_cases hr : r = rack
    · subst hr
      rw [Function.update_same]
      exact le_trans (suffix_count_le (hl d) p) (inv.localCnt p r d)
    · rw [Function.update_noteq hr]
      exact inv.localCnt p r d
  · intro p r d
    dsimp only
    by_cases hr : r = rack
    · subst hr
      rw [Function.update_same]
      exact le_trans (suffix_count_le (hn d) p) (inv.nonlocalCnt p r d)
    · rw [Function.update_noteq hr]
      exact inv.nonlocalCnt p r d
  · intro p r d r' d' h1 h2
    exact inv.localLocal p r d r' d' (hmeml p r d h1) (hmeml p r' d' h2)
  · intro p r d r' d' h1 h2
    exact inv.localNonlocal p r d r' d' (hmeml p r d h1) (hmemn p r' d' h2)
  · intro p r d r' d' h1 h2
    exact inv.nonNon p r d r' d' (hmemn p r d h1) (hmemn p r' d' h2)
  · intro p r d hp
    have hpne : p ≠ pid := by
      rintro rfl
      rcases hp with hp | hp
      · exact (hnotin r d).1 hp
      · exact (hnotin r d).2 hp
    have hold : evCount p s.event_queue = 0 := by
      refine inv.memEv p r d ?_
      rcases hp with hp | hp
      · exact Or.inl (hmeml p r d hp)
      · exact Or.inr (hmemn p r d hp)
    show evCount p (s.event_queue ++ [⟨_, t, pid⟩]) = 0
    rw [evCount_append_pk p pid t s.event_queue _ (by simp), hold,
      if_neg (fun h => hpne h.symm)]
  · intro p
    show evCount p (s.event_queue ++ [⟨_, t, pid⟩]) ≤ 1
    rw [evCount_append_pk p pid t s.event_queue _ (by simp)]
    by_cases hp : pid = p
    · subst hp
      rw [hev0, if_pos rfl]
    · rw [if_neg hp]
      have := inv.evCnt p
      omega

/-- The transmitter wakeup preserves the invariant: it either leaves
the queues untouched, or removes the head of exactly one queue per
dequeue and schedules one transmission event for the last packet
dequeued (the earlier ones simply lose their place — which the
invariant, stating *at most* one occurrence, tolerates). -/
theorem Inv_startTransmission (cfg : SimConfig) {s : SimState}
    (inv : Inv s) (rack : ℕ) : Inv (startTransmission cfg s rack) := by
  have hnd1 : (s.voqs rack).getNonemptyNonlocalDestinations.Nodup :=
    (List.nodup_range _).filter _
  have hnd2 : (s.voqs rack).getNonemptyLocalDestinations.Nodup :=
    (List.nodup_range _).filter _
  have F1 := scanFold_nonlocal_spec
    (fun d => hasDirectPath cfg rack d s.current_time_us)
    (s.voqs rack).getNonemptyNonlocalDestinations hnd1 (s.voqs rack) none
    (scanDequeue (fun v d => v.dequeueNonlocal d)
      (fun d => hasDirectPath cfg rack d s.current_time_us)
      (s.voqs rack).getNonemptyNonlocalDestinations (s.voqs rack)) rfl
  simp only [startTransmission]
  split
  · exact ⟨inv.localMem, inv.nonlocalMem, inv.txEv, inv.paEv, inv.hopLe,
      inv.hopTwo, inv.localCnt, inv.nonlocalCnt, inv.localLocal,
      inv.localNonlocal, inv.nonNon, inv.memEv, inv.evCnt⟩
  · rcases hsel1 : (scanDequeue (fun v d => v.dequeueNonlocal d)
        (fun d => hasDirectPath cfg rack d s.current_time_us)
        (s.voqs rack).getNonemptyNonlocalDestinations (s.voqs rack)).2
      with _ | ⟨dst1, pid1⟩
    · obtain ⟨hv1, _⟩ := F1.2.2.2.2.2.2.1 hsel1
      have F2 := scanFold_local_spec
        (fun d => hasDirectPath cfg rack d s.current_time_us)
        (s.voqs rack).getNonemptyLocalDestinations hnd2 (s.voqs rack) none
        (scanDequeue (fun v d => v.dequeueLocal d)
          (fun d => hasDirectPath cfg rack d s.current_time_us)
          (s.voqs rack).getNonemptyLocalDestinations (s.voqs rack)) rfl
      simp only [hsel1, hv1, Option.isNone_none, if_true]
      rcases hsel2 : (scanDequeue (fun v d => v.dequeueLocal d)
          (fun d => hasDirectPath cfg rack d s.current_time_us)
          (s.voqs rack).getNonemptyLocalDestinations (s.voqs rack)).2
        with _ | ⟨dst2, pid2⟩
      · simp only [hsel2]
        refine Inv_shrinkVoq inv rack _ F2.1 (fun d => ?_) _
        rw [F2.2.2.1]
      · simp only [hsel2]
        rcases F2.2.2.2.2.2.2.2 dst2 pid2 hsel2 with habs | ⟨_, hqf⟩
        · exact absurd habs (by simp)
        · exact Inv_transmit inv rack dst2 pid2 _ _ _ _
            F2.1 (fun d => by rw [F2.2.2.1])
            (Or.inl ⟨hqf, F2.2.2.1⟩) ⟨rfl, rfl, rfl, rfl⟩
    · simp only [hsel1, Option.isNone_some, Bool.false_eq_true, if_false]
      rcases F1.2.2.2.2.2.2.2 dst1 pid1 hsel1 with habs | ⟨_, hqf⟩
      · exact absurd habs (by simp)
      · exact Inv_transmit inv rack dst1 pid1 _ _ _ _
          (fun d => by rw [F1.2.2.1]) F1.1
          (Or.inr ⟨hqf, F1.2.2.1⟩) ⟨rfl, rfl, rfl, rfl⟩

/-- The invariant only looks at the queues, the packet registry, the
packet-id counter and the event queue. -/
theorem Inv_congr {s s' : SimState} (inv : Inv s)
    (hv : s'.voqs = s.voqs) (hp : s'.packets = s.packets)
    (hnext : s'.next_packet_id = s.next_packet_id)
    (hq : s'.event_queue = s.event_queue) : Inv s' := by
  refine ⟨?_, ?_, ?_, ?_, ?_, ?_, ?_, ?_, ?_, ?_, ?_, ?_, ?_⟩ <;>
    simp only [hv, hp, hnext, hq] <;>
    first
      | exact inv.localMem
      | exact inv.nonlocalMem
      | exact inv.txEv
      | exact inv.paEv
      | exact inv.hopLe
      | exact inv.hopTwo
      | exact inv.localCnt
      | exact inv.nonlocalCnt
      | exact inv.localLocal
      | exact inv.localNonlocal
      | exact inv.nonNon
      | exact inv.memEv
      | exact inv.evCnt

/-- A packet id with no pending packet event: no non-flow event in the
queue carries it. -/
theorem evCount_no_event {p : ℕ} {q : List Event} (h : evCount p q = 0) :
    ∀ e ∈ q, e.type ≠ EventType.FLOW_ARRIVAL → e.id ≠ p := by
  intro e hmem hty hid
  unfold evCount at h
  rw [List.countP_eq_zero] at h
  refine h e hmem ?_
  simp only [Bool.and_eq_true, Bool.or_eq_true, beq_iff_eq]
  refine ⟨?_, hid⟩
  cases htyp : e.type with
  | FLOW_ARRIVAL => exact absurd htyp hty
  | PACKET_ARRIVAL => exact Or.inl rfl
  | PACKET_TRANSMISSION_COMPLETE => exact Or.inr rfl

/-- Ids at or beyond the counter have no pending packet event. -/
theorem evCount_zero_of_ge {s : SimState} (inv : Inv s) {pid : ℕ}
    (h : s.next_packet_id ≤ pid) : evCount pid s.event_queue = 0 := by
  unfold evCount
  rw [List.countP_eq_zero]
  intro e hmem hcon
  simp only [Bool.and_eq_true, Bool.or_eq_true, beq_iff_eq] at hcon
  obtain ⟨hty | hty, hid⟩ := hcon
  · have := (inv.paEv e hmem hty).1
    omega
  · have := (inv.txEv e hmem hty).1
    omega

/-- Ids at or beyond the counter sit in no queue. -/
theorem notMem_of_ge {s : SimState} (inv : Inv s) {pid : ℕ}
    (h : s.next_packet_id ≤ pid) : ∀ r d,
    pid ∉ (s.voqs r).local_voqs d ∧ pid ∉ (s.voqs r).nonlocal_voqs d := by
  intro r d
  constructor
  · intro hmem
    have := (inv.localMem pid r d hmem).1
    omega
  · intro hmem
    have := (inv.nonlocalMem pid r d hmem).1
    omega

/-- Rewriting the registry entry of a packet that sits in no queue and
has no pending event preserves the invariant, provided the hop count is
kept and a hop count of 2 comes with `current_dst = final_dst`. -/
theorem Inv_updatePacket {s s' : SimState} (inv : Inv s) (pid : ℕ)
    (newpkt : Packet)
    (hv : s'.voqs = s.voqs)
    (hp : s'.packets = Function.update s.packets pid newpkt)
    (hnext : s'.next_packet_id = s.next_packet_id)
    (hq : s'.event_queue = s.event_queue)
    (hnin : ∀ r d, pid ∉ (s.voqs r).local_voqs d ∧
      pid ∉ (s.voqs r).nonlocal_voqs d)
    (hev : evCount pid s.event_queue = 0)
    (hle : newpkt.hop_count ≤ 2)
    (hhop2 : newpkt.hop_count = 2 →
      newpkt.current_dst = newpkt.final_dst) : Inv s' := by
  have hne := evCount_no_event hev
  refine ⟨?_, ?_, ?_, ?_, ?_, ?_, ?_, ?_, ?_, ?_, ?_, ?_, ?_⟩ <;>
    simp only [hv, hp, hnext, hq]
  · intro p r d hmem
    have hold := inv.localMem p r d hmem
    have hpne : p ≠ pid := fun hpe => (hnin r d).1 (hpe ▸ hmem)
    rw [Function.update_noteq hpne]
    exact hold
  · intro p r d hmem
    have hold := inv.nonlocalMem p r d hmem
    have hpne : p ≠ pid := fun hpe => (hnin r d).2 (hpe ▸ hmem)
    rw [Function.update_noteq hpne]
    exact hold
  · intro e hmem hty
    have hold := inv.txEv e hmem hty
    have hen : e.id ≠ pid := hne e hmem (by rw [hty]; intro hc; cases hc)
    rw [Function.update_noteq hen]
    exact hold
  · intro e hmem hty
    have hold := inv.paEv e hmem hty
    have hen : e.id ≠ pid := hne e hmem (by rw [hty]; intro hc; cases hc)
    rw [Function.update_noteq hen]
    exact hold
  · intro p
    by_cases hpe : p = pid
    · subst hpe
      rw [Function.update_same]
      exact hle
    · rw [Function.update_noteq hpe]
      exact inv.hopLe p
  · intro p hp2
    by_cases hpe : p = pid
    · subst hpe
      rw [Function.update_same] at hp2 ⊢
      exact hhop2 hp2
    · rw [Function.update_noteq hpe] at hp2 ⊢
      exact inv.hopTwo p hp2
  · exact inv.localCnt
  · exact inv.nonlocalCnt
  · exact inv.localLocal
  · exact inv.localNonlocal
  · exact inv.nonNon
  · exact inv.memEv
  · exact inv.evCnt

/-- Appending a queue-free, event-free packet id to the tail of one
local VOQ — the successful `LOCAL` enqueue — preserves the invariant
when its registry entry keeps hop count 0. -/
theorem Inv_appendLocal {s s' : SimState} (inv : Inv s)
    (pid rack dq : ℕ) (v' : VirtualOutputQueues) (newpkt : Packet)
    (hv : s'.voqs = Function.update s.voqs rack v')
    (hp : s'.packets = Function.update s.packets pid newpkt)
    (hnext : s'.next_packet_id = s.next_packet_id)
    (hq : s'.event_queue = s.event_queue)
    (hvl : v'.local_voqs = Function.update (s.voqs rack).local_voqs dq
      ((s.voqs rack).local_voqs dq ++ [pid]))
    (hvn : v'.nonlocal_voqs = (s.voqs rack).nonlocal_voqs)
    (hpidN : pid < s.next_packet_id)
    (hnin : ∀ r d, pid ∉ (s.voqs r).local_voqs d ∧
      pid ∉ (s.voqs r).nonlocal_voqs d)
    (hev : evCount pid s.event_queue = 0)
    (hh0 : newpkt.hop_count = 0) : Inv s' := by
  have hne := evCount_no_event hev
  have hmeml : ∀ p r d,
      p ∈ ((Function.update s.voqs rack v') r).local_voqs d →
      p ∈ (s.voqs r).local_voqs d ∨ (p = pid ∧ r = rack ∧ d = dq) := by
    intro p r d hmem
    by_cases hr : r = rack
    · subst hr
      rw [Function.update_same, hvl] at hmem
      by_cases hd : d = dq
      · subst hd
        rw [Function.update_same] at hmem
        rcases List.mem_append.mp hmem with h | h
        · exact Or.inl h
        · rcases List.mem_singleton.mp h with rfl
          exact Or.inr ⟨rfl, rfl, rfl⟩
      · rw [Function.update_noteq hd] at hmem
        exact Or.inl hmem
    · rw [Function.update_noteq hr] at hmem
      exact Or.inl hmem
  have hmemn : ∀ p r d,
      p ∈ ((Function.update s.voqs rack v') r).nonlocal_voqs d →
      p ∈ (s.voqs r).nonlocal_voqs d := by
    intro p r d hmem
    by_cases hr : r = rack
    · subst hr
      rw [Function.update_same, hvn] at hmem
      exact hmem
    · rwa [Function.update_noteq hr] at hmem
  refine ⟨?_, ?_, ?_, ?_, ?_, ?_, ?_, ?_, ?_, ?_, ?_, ?_, ?_⟩ <;>
    simp only [hv, hp, hnext, hq]
  · intro p r d hmem
    rcases hmeml p r d hmem with hold | ⟨rfl, rfl, rfl⟩
    · have hpne : p ≠ pid := fun hpe => (hnin r d).1 (hpe ▸ hold)
      rw [Function.update_noteq hpne]
      exact inv.localMem p r d hold
    · rw [Function.update_same]
      exact ⟨hpidN, hh0⟩
  · intro p r d hmem
    have hold := hmemn p r d hmem
    have hpne : p ≠ pid := fun hpe => (hnin r d).2 (hpe ▸ hold)
    rw [Function.update_noteq hpne]
    exact inv.nonlocalMem p r d hold
  · intro e hmem hty
    have hen : e.id ≠ pid := hne e hmem (by rw [hty]; intro hc; cases hc)
    rw [Function.update_noteq hen]
    exact inv.txEv e hmem hty
  · intro e hmem hty
    have hen : e.id ≠ pid := hne e hmem (by rw [hty]; intro hc; cases hc)
    rw [Function.update_noteq hen]
    exact inv.paEv e hmem hty
  · intro p
    by_cases hpe : p = pid
    · subst hpe
      rw [Function.update_same, hh0]
      omega
    · rw [Function.update_noteq hpe]
      exact inv.hopLe p
  · intro p hp2
    by_cases hpe : p = pid
    · subst hpe
      rw [Function.update_same] at hp2
      rw [hh0] at hp2
      cases hp2
    · rw [Function.update_noteq hpe] at hp2 ⊢
      exact inv.hopTwo p hp2
  · intro p r d
    by_cases hr : r = rack
    · subst hr
      rw [Function.update_same, hvl]
      by_cases hd : d = dq
      · subst hd
        rw [Function.update_same, List.count_append]
        by_cases hpe : p = pid
        · subst hpe
          rw [List.count_eq_zero.mpr (hnin r d).1]
          simp
        · have h1 : List.count p [pid] = 0 :=
            List.count_eq_zero.mpr (by simp [hpe])
          rw [h1]
          have := inv.localCnt p r d
          omega
      · rw [Function.update_noteq hd]
        exact inv.localCnt p r d
    · rw [Function.update_noteq hr]
      exact inv.localCnt p r d
  · intro p r d
    by_cases hr : r = rack
    · subst hr
      rw [Function.update_same, hvn]
      exact inv.nonlocalCnt p r d
    · rw [Function.update_noteq hr]
      exact inv.nonlocalCnt p r d
  · intro p r d r' d' h1 h2
    rcases hmeml p r d h1 with ho1 | ⟨rfl, rfl, rfl⟩
    · rcases hmeml p r' d' h2 with ho2 | ⟨hpe, _, _⟩
      · exact inv.localLocal p r d r' d' ho1 ho2
      · exact absurd ho1 (hpe ▸ (hnin r d).1)
    · rcases hmeml p r' d' h2 with ho2 | ⟨_, he1, he2⟩
      · exact absurd ho2 (hnin r' d').1
      · exact ⟨he1.symm, he2.symm⟩
  · intro p r d r' d' h1 h2
    have ho2 := hmemn p r' d' h2
    rcases hmeml p r d h1 with ho1 | ⟨rfl, _, _⟩
    · exact inv.localNonlocal p r d r' d' ho1 ho2
    · exact (hnin r' d').2 ho2
  · intro p r d r' d' h1 h2
    exact inv.nonNon p r d r' d' (hmemn p r d h1) (hmemn p r' d' h2)
  · intro p r d hmem
    rcases hmem with hmem | hmem
    · rcases hmeml p r d hmem with hold | ⟨rfl, _, _⟩
      · exact inv.memEv p r d (Or.inl hold)
      · exact hev
    · exact inv.memEv p r d (Or.inr (hmemn p r d hmem))
  · exact inv.evCnt

/-- Appending a queue-free, event-free packet id to the tail of one
nonlocal VOQ — the successful `NONLOCAL` enqueue — preserves the
invariant when its registry entry has hop count 1 and
`current_dst = final_dst`. -/
theorem Inv_appendNonlocal {s s' : SimState} (inv : Inv s)
    (pid rack dq : ℕ) (v' : VirtualOutputQueues) (newpkt : Packet)
    (hv : s'.voqs = Function.update s.voqs rack v')
    (hp : s'.packets = Function.update s.packets pid newpkt)
    (hnext : s'.next_packet_id = s.next_packet_id)
    (hq : s'.event_queue = s.event_queue)
    (hvn : v'.nonlocal_voqs = Function.update (s.voqs rack).nonlocal_voqs
      dq ((s.voqs rack).nonlocal_voqs dq ++ [pid]))
    (hvl : v'.local_voqs = (s.voqs rack).local_voqs)
    (hpidN : pid < s.next_packet_id)
    (hnin : ∀ r d, pid ∉ (s.voqs r).local_voqs d ∧
      pid ∉ (s.voqs r).nonlocal_voqs d)
    (hev : evCount pid s.event_queue = 0)
    (hh1 : newpkt.hop_count = 1)
    (hcd : newpkt.current_dst = newpkt.final_dst) : Inv s' := by
  have hne := evCount_no_event hev
  have hmemn : ∀ p r d,
      p ∈ ((Function.update s.voqs rack v') r).nonlocal_voqs d →
      p ∈ (s.voqs r).nonlocal_voqs d ∨ (p = pid ∧ r = rack ∧ d = dq) := by
    intro p r d hmem
    by_cases hr : r = rack
    · subst hr
      rw [Function.update_same, hvn] at hmem
      by_cases hd : d = dq
      · subst hd
        rw [Function.update_same] at hmem
        rcases List.mem_append.mp hmem with h | h
        · exact Or.inl h
        · rcases List.mem_singleton.mp h with rfl
          exact Or.inr ⟨rfl, rfl, rfl⟩
      · rw [Function.update_noteq hd] at hmem
        exact Or.inl hmem
    · rw [Function.update_noteq hr] at hmem
      exact Or.inl hmem
  have hmeml : ∀ p r d,
      p ∈ ((Function.update s.voqs rack v') r).local_voqs d →
      p ∈ (s.voqs r).local_voqs d := by
    intro p r d hmem
    by_cases hr : r = rack
    · subst hr
      rw [Function.update_same, hvl] at hmem
      exact hmem
    · rwa [Function.update_noteq hr] at hmem
  refine ⟨?_, ?_, ?_, ?_, ?_, ?_, ?_, ?_, ?_, ?_, ?_, ?_, ?_⟩ <;>
    simp only [hv, hp, hnext, hq]
  · intro p r d hmem
    have hold := hmeml p r d hmem
    have hpne : p ≠ pid := fun hpe => (hnin r d).1 (hpe ▸ hold)
    rw [Function.update_noteq hpne]
    exact inv.localMem p r d hold
  · intro p r d hmem
    rcases hmemn p r d hmem with hold | ⟨rfl, rfl, rfl⟩
    · have hpne : p ≠ pid := fun hpe => (hnin r d).2 (hpe ▸ hold)
      rw [Function.update_noteq hpne]
      exact inv.nonlocalMem p r d hold
    · rw [Function.update_same]
      exact ⟨hpidN, hh1, hcd⟩
  · intro e hmem hty
    have hen : e.id ≠ pid := hne e hmem (by rw [hty]; intro hc; cases hc)
    rw [Function.update_noteq hen]
    exact inv.txEv e hmem hty
  · intro e hmem hty
    have hen : e.id ≠ pid := hne e hmem (by rw [hty]; intro hc; cases hc)
    rw [Function.update_noteq hen]
    exact inv.paEv e hmem hty
  · intro p
    by_cases hpe : p = pid
    · subst hpe
      rw [Function.update_same, hh1]
      omega
    · rw [Function.update_noteq hpe]
      exact inv.hopLe p
  · intro p hp2
    by_cases hpe : p = pid
    · subst hpe
      rw [Function.update_same] at hp2
      rw [hh1] at hp2
      cases hp2
    · rw [Function.update_noteq hpe] at hp2 ⊢
      exact inv.hopTwo p hp2
  · intro p r d
    by_cases hr : r = rack
    · subst hr
      rw [Function.update_same, hvl]
      exact inv.localCnt p r d
    · rw [Function.update_noteq hr]
      exact inv.localCnt p r d
  · intro p r d
    by_cases hr : r = rack
    · subst hr
      rw [Function.update_same, hvn]
      by_cases hd : d = dq
      · subst hd
        rw [Function.update_same, List.count_append]
        by_cases hpe : p = pid
        · subst hpe
          rw [List.count_eq_zero.mpr (hnin r d).2]
          simp
        · have h1 : List.count p [pid] = 0 :=
            List.count_eq_zero.mpr (by simp [hpe])
          rw [h1]
          have := inv.nonlocalCnt p r d
          omega
      · rw [Function.update_noteq hd]
        exact inv.nonlocalCnt p r d
    · rw [Function.update_noteq hr]
      exact inv.nonlocalCnt p r d
  · intro p r d r' d' h1 h2
    exact inv.localLocal p r d r' d' (hmeml p r d h1) (hmeml p r' d' h2)
  · intro p r d r' d' h1 h2
    have ho1 := hmeml p r d h1
    rcases hmemn p r' d' h2 with ho2 | ⟨rfl, _, _⟩
    · exact inv.localNonlocal p r d r' d' ho1 ho2
    · exact (hnin r d).1 ho1
  · intro p r d r' d' h1 h2
    rcases hmemn p r d h1 with ho1 | ⟨rfl, rfl, rfl⟩
    · rcases hmemn p r' d' h2 with ho2 | ⟨hpe, _, _⟩
      · exact inv.nonNon p r d r' d' ho1 ho2
      · exact absurd ho1 (hpe ▸ (hnin r d).2)
    · rcases hmemn p r' d' h2 with ho2 | ⟨_, he1, he2⟩
      · exact absurd ho2 (hnin r' d').2
      · exact ⟨he1.symm, he2.symm⟩
  · intro p r d hmem
    rcases hmem with hmem | hmem
    · exact inv.memEv p r d (Or.inl (hmeml p r d hmem))
    · rcases hmemn p r d hmem with hold | ⟨rfl, _, _⟩
      · exact inv.memEv p r d (Or.inr hold)
      · exact hev
  · exact inv.evCnt

theorem enqueue_LOCAL (v : VirtualOutputQueues) (p d : ℕ) :
    v.enqueue p d .LOCAL = v.enqueueLocal p d := rfl

theorem enqueue_NONLOCAL (v : VirtualOutputQueues) (p d : ℕ) :
    v.enqueue p d .NONLOCAL = v.enqueueNonlocal p d := rfl

/-- Admission of a fresh (hop-0, queue-free, event-free) packet
preserves the invariant: whichever branch runs, the packet is either
appended to one local queue or marked dropped with the queues intact. -/
theorem Inv_admitPacket (cfg : SimConfig) {s : SimState} (inv : Inv s)
    (pid rack : ℕ)
    (hpidN : pid < s.next_packet_id)
    (hnin : ∀ r d, pid ∉ (s.voqs r).local_voqs d ∧
      pid ∉ (s.voqs r).nonlocal_voqs d)
    (hev : evCount pid s.event_queue = 0)
    (hhop0 : (s.packets pid).hop_count = 0) :
    Inv (admitPacket cfg s pid rack).1 := by
  simp only [admitPacket]
  split
  next h => omega
  next h =>
    split
    · rw [enqueue_LOCAL]
      rcases enqueueLocal_cases (s.voqs rack) pid
          (s.packets pid).final_dst with hc | hc
      · rw [hc]
        dsimp only
        rw [if_neg (by decide)]
        refine Inv_updatePacket inv pid _ ?_ rfl rfl rfl hnin hev
          ((le_of_eq hhop0).trans (by decide))
          (fun h2 => absurd (hhop0.symm.trans h2) (by decide))
        dsimp only
        rw [Function.update_eq_self]
      · rw [hc]
        dsimp only
        rw [if_pos rfl]
        exact Inv_appendLocal inv pid rack (s.packets pid).final_dst _ _
          rfl rfl rfl rfl rfl rfl hpidN hnin hev hhop0
    · rw [enqueue_LOCAL]
      rcases enqueueLocal_cases (s.voqs rack) pid
          (s.oracle s.oracle_pos) with hc | hc
      · rw [hc]
        dsimp only
        rw [if_neg (by decide)]
        refine Inv_updatePacket inv pid _ ?_ rfl rfl rfl hnin hev
          ((le_of_eq hhop0).trans (by decide))
          (fun h2 => absurd (hhop0.symm.trans h2) (by decide))
        dsimp only
        rw [Function.update_eq_self]
      · rw [hc]
        dsimp only
        rw [if_pos rfl]
        exact Inv_appendLocal inv pid rack (s.oracle s.oracle_pos) _ _
          rfl rfl rfl rfl rfl rfl hpidN hnin hev hhop0

/-- `Simulator::enqueuePacket` on a fresh packet preserves the
invariant. -/
theorem Inv_enqueuePacket (cfg : SimConfig) {s : SimState} (inv : Inv s)
    (pid rack : ℕ)
    (hpidN : pid < s.next_packet_id)
    (hnin : ∀ r d, pid ∉ (s.voqs r).local_voqs d ∧
      pid ∉ (s.voqs r).nonlocal_voqs d)
    (hev : evCount pid s.event_queue = 0)
    (hhop0 : (s.packets pid).hop_count = 0) :
    Inv (enqueuePacket cfg s pid rack) := by
  have hadm := Inv_admitPacket cfg inv pid rack hpidN hnin hev hhop0
  simp only [enqueuePacket]
  split
  · split
    · exact hadm
    · exact Inv_startTransmission cfg hadm rack
  · exact hadm

/-- Registering a fresh hop-0 packet under the old counter value and
bumping the counter preserves the invariant. -/
theorem Inv_newPacket {s s' : SimState} (inv : Inv s) (newpkt : Packet)
    (hv : s'.voqs = s.voqs)
    (hp : s'.packets = Function.update s.packets s.next_packet_id newpkt)
    (hnext : s'.next_packet_id = s.next_packet_id + 1)
    (hq : s'.event_queue = s.event_queue)
    (hh0 : newpkt.hop_count = 0) : Inv s' := by
  have hne := evCount_no_event (evCount_zero_of_ge inv (le_refl _))
  refine ⟨?_, ?_, ?_, ?_, ?_, ?_, ?_, ?_, ?_, ?_, ?_, ?_, ?_⟩ <;>
    simp only [hv, hp, hnext, hq]
  · intro p r d hmem
    have hold := inv.localMem p r d hmem
    have hpne : p ≠ s.next_packet_id := by omega
    rw [Function.update_noteq hpne]
    exact ⟨by omega, hold.2⟩
  · intro p r d hmem
    have hold := inv.nonlocalMem p r d hmem
    have hpne : p ≠ s.next_packet_id := by omega
    rw [Function.update_noteq hpne]
    exact ⟨by omega, hold.2⟩
  · intro e hmem hty
    have hold := inv.txEv e hmem hty
    have hen : e.id ≠ s.next_packet_id := by omega
    rw [Function.update_noteq hen]
    exact ⟨by omega, hold.2⟩
  · intro e hmem hty
    have hold := inv.paEv e hmem hty
    have hen : e.id ≠ s.next_packet_id := by omega
    rw [Function.update_noteq hen]
    exact ⟨by omega, hold.2⟩
  · intro p
    by_cases hpe : p = s.next_packet_id
    · subst hpe
      rw [Function.update_same, hh0]
      omega
    · rw [Function.update_noteq hpe]
      exact inv.hopLe p
  · intro p hp2
    by_cases hpe : p = s.next_packet_id
    · subst hpe
      rw [Function.update_same] at hp2
      rw [hh0] at hp2
      cases hp2
    · rw [Function.update_noteq hpe] at hp2 ⊢
      exact inv.hopTwo p hp2
  · exact inv.localCnt
  · exact inv.nonlocalCnt
  · exact inv.localLocal
  · exact inv.localNonlocal
  · exact inv.nonNon
  · exact inv.memEv
  · exact inv.evCnt

/-- One packet-creation step of `handleFlowArrival` preserves the
invariant. -/
theorem Inv_faStep (cfg : SimConfig) (fid : ℕ) {st : SimState × ℕ}
    (inv : Inv st.1) (k : ℕ) : Inv (faStep cfg fid st k).1 := by
  simp only [faStep]
  refine Inv_enqueuePacket cfg ?_ st.1.next_packet_id _
    (Nat.lt_succ_self _) (notMem_of_ge inv (le_refl _))
    (evCount_zero_of_ge inv (le_refl _)) ?_
  · exact Inv_newPacket inv _ rfl rfl rfl rfl rfl
  · dsimp only
    rw [Function.update_same]

/-- `Simulator::handleFlowArrival` preserves the invariant. -/
theorem Inv_handleFlowArrival (cfg : SimConfig) {s : SimState}
    (inv : Inv s) (fid : ℕ) : Inv (handleFlowArrival cfg s fid) := by
  simp only [handleFlowArrival]
  suffices h : ∀ (l : List ℕ) (st : SimState × ℕ), Inv st.1 →
      Inv ((l.foldl (faStep cfg fid) st).1) from
    h _ _ inv
  intro l
  induction l with
  | nil =>
    intro st h
    simpa using h
  | cons a as ih =>
    intro st h
    rw [List.foldl_cons]
    exact ih _ (Inv_faStep cfg fid h a)

theorem popMin_ne_none {a : Event} {as : List Event} :
    popMin (a :: as) ≠ none := by
  simp only [popMin]
  rcases popMin as with _ | ⟨e', es'⟩
  · simp
  · dsimp only
    split <;> simp

/-- The popped event together with the residual queue is a permutation
of the original queue. -/
theorem popMin_perm : ∀ {l : List Event} {e : Event} {rest : List Event},
    popMin l = some (e, rest) → l.Perm (e :: rest) := by
  intro l
  induction l with
  | nil =>
    intro e rest h
    cases h
  | cons a as ih =>
    intro e rest h
    simp only [popMin] at h
    rcases hm : popMin as with _ | ⟨e', es'⟩
    · rw [hm] at h
      simp only [Option.some.injEq, Prod.mk.injEq] at h
      obtain ⟨he1, he2⟩ := h
      have has : as = [] := by
        cases as with
        | nil => rfl
        | cons b bs => exact absurd hm popMin_ne_none
      subst has
      rw [← he1, ← he2]
    · rw [hm] at h
      dsimp only at h
      by_cases hlt : e'.time_us < a.time_us
      · rw [if_pos hlt] at h
        simp only [Option.some.injEq, Prod.mk.injEq] at h
        obtain ⟨he1, he2⟩ := h
        rw [← he1, ← he2]
        exact ((ih hm).cons a).trans (List.Perm.swap e' a es')
      · rw [if_neg hlt] at h
        simp only [Option.some.injEq, Prod.mk.injEq] at h
        obtain ⟨he1, he2⟩ := h
        rw [← he1, ← he2]

theorem evCount_perm (p : ℕ) {q q' : List Event} (h : q.Perm q') :
    evCount p q = evCount p q' :=
  h.countP_eq _

/-- Popping an event whose id matches it (a packet event for its own
packet) accounts for exactly one pending event. -/
theorem evCount_cons_self {evt : Event} (rest : List Event)
    (hty : evt.type ≠ EventType.FLOW_ARRIVAL) :
    evCount evt.id (evt :: rest) = evCount evt.id rest + 1 := by
  have hpred : ((evt.type == EventType.PACKET_ARRIVAL ||
      evt.type == EventType.PACKET_TRANSMISSION_COMPLETE) &&
      (evt.id == evt.id)) = true := by
    cases h : evt.type with
    | FLOW_ARRIVAL => exact absurd h hty
    | PACKET_ARRIVAL => simp
    | PACKET_TRANSMISSION_COMPLETE => simp
  unfold evCount
  rw [List.countP_cons, hpred]
  simp

/-- Removing the popped event from the queue and moving the clock
preserves the invariant. -/
theorem Inv_popped {s : SimState} (inv : Inv s) {e : Event}
    {rest : List Event} (hperm : s.event_queue.Perm (e :: rest))
    {s' : SimState} (hv : s'.voqs = s.voqs) (hp : s'.packets = s.packets)
    (hnext : s'.next_packet_id = s.next_packet_id)
    (hq : s'.event_queue = rest) : Inv s' := by
  have hmemq : ∀ e' ∈ rest, e' ∈ s.event_queue := fun e' he' =>
    hperm.mem_iff.mpr (List.mem_cons_of_mem _ he')
  have hcnt : ∀ p, evCount p (e :: rest) = evCount p s.event_queue :=
    fun p => (evCount_perm p hperm).symm
  have hcons : ∀ p, evCount p rest ≤ evCount p (e :: rest) := by
    intro p
    unfold evCount
    rw [List.countP_cons]
    omega
  refine ⟨?_, ?_, ?_, ?_, ?_, ?_, ?_, ?_, ?_, ?_, ?_, ?_, ?_⟩ <;>
    simp only [hv, hp, hnext, hq]
  · exact inv.localMem
  · exact inv.nonlocalMem
  · intro e' he' hty
    exact inv.txEv e' (hmemq e' he') hty
  · intro e' he' hty
    exact inv.paEv e' (hmemq e' he') hty
  · exact inv.hopLe
  · exact inv.hopTwo
  · exact inv.localCnt
  · exact inv.nonlocalCnt
  · exact inv.localLocal
  · exact inv.localNonlocal
  · exact inv.nonNon
  · intro p r d hmem
    have h0 := inv.memEv p r d hmem
    have h1 := hcnt p
    have h2 := hcons p
    omega
  · intro p
    have h0 := inv.evCnt p
    have h1 := hcnt p
    have h2 := hcons p
    omega

/-- Facts about the packet of a popped packet event: it sits in no
queue, and no other pending event carries it. -/
theorem popped_packet_facts {s : SimState} (inv : Inv s) {evt : Event}
    {rest : List Event} (hperm : s.event_queue.Perm (evt :: rest))
    (hty : evt.type ≠ EventType.FLOW_ARRIVAL) :
    (∀ r d, evt.id ∉ (s.voqs r).local_voqs d ∧
      evt.id ∉ (s.voqs r).nonlocal_voqs d) ∧
    evCount evt.id rest = 0 := by
  have hone : evCount evt.id s.event_queue = evCount evt.id rest + 1 := by
    rw [evCount_perm evt.id hperm]
    exact evCount_cons_self rest hty
  refine ⟨fun r d => ⟨?_, ?_⟩, ?_⟩
  · intro hmem
    have := inv.memEv evt.id r d (Or.inl hmem)
    omega
  · intro hmem
    have := inv.memEv evt.id r d (Or.inr hmem)
    omega
  · have := inv.evCnt evt.id
    omega

/-- Forwarding a queue-free, event-free packet: its registry entry
becomes a hop-1 entry headed for its final destination on a foreign
rack, and one `PACKET_ARRIVAL` event is scheduled for it. -/
theorem Inv_forward {s s' : SimState} (inv : Inv s) (pid : ℕ)
    (newpkt : Packet) (t : ℚ)
    (hv : s'.voqs = s.voqs)
    (hp : s'.packets = Function.update s.packets pid newpkt)
    (hnext : s'.next_packet_id = s.next_packet_id)
    (hq : s'.event_queue = s.event_queue ++
      [⟨EventType.PACKET_ARRIVAL, t, pid⟩])
    (hpidN : pid < s.next_packet_id)
    (hnin : ∀ r d, pid ∉ (s.voqs r).local_voqs d ∧
      pid ∉ (s.voqs r).nonlocal_voqs d)
    (hev : evCount pid s.event_queue = 0)
    (hh1 : newpkt.hop_count = 1)
    (hcd : newpkt.current_dst = newpkt.final_dst)
    (hcr : newpkt.current_rack ≠ newpkt.final_dst) : Inv s' := by
  have hne := evCount_no_event hev
  refine ⟨?_, ?_, ?_, ?_, ?_, ?_, ?_, ?_, ?_, ?_, ?_, ?_, ?_⟩ <;>
    simp only [hv, hp, hnext, hq]
  · intro p r d hmem
    have hpne : p ≠ pid := fun hpe => (hnin r d).1 (hpe ▸ hmem)
    rw [Function.update_noteq hpne]
    exact inv.localMem p r d hmem
  · intro p r d hmem
    have hpne : p ≠ pid := fun hpe => (hnin r d).2 (hpe ▸ hmem)
    rw [Function.update_noteq hpne]
    exact inv.nonlocalMem p r d hmem
  · intro e hmem hty
    rcases List.mem_append.mp hmem with hmem' | hmem'
    · have hen : e.id ≠ pid := hne e hmem' (by rw [hty]; intro hc; cases hc)
      rw [Function.update_noteq hen]
      exact inv.txEv e hmem' hty
    · rcases List.mem_singleton.mp hmem' with rfl
      exact absurd hty (by simp)
  · intro e hmem hty
    rcases List.mem_append.mp hmem with hmem' | hmem'
    · have hen : e.id ≠ pid := hne e hmem' (by rw [hty]; intro hc; cases hc)
      rw [Function.update_noteq hen]
      exact inv.paEv e hmem' hty
    · rcases List.mem_singleton.mp hmem' with rfl
      refine ⟨hpidN, ?_⟩
      rw [Function.update_same]
      exact ⟨hh1, hcd, hcr⟩
  · intro p
    by_cases hpe : p = pid
    · subst hpe
      rw [Function.update_same, hh1]
      omega
    · rw [Function.update_noteq hpe]
      exact inv.hopLe p
  · intro p hp2
    by_cases hpe : p = pid
    · subst hpe
      rw [Function.update_same] at hp2
      rw [hh1] at hp2
      cases hp2
    · rw [Function.update_noteq hpe] at hp2 ⊢
      exact inv.hopTwo p hp2
  · exact inv.localCnt
  · exact inv.nonlocalCnt
  · exact inv.localLocal
  · exact inv.localNonlocal
  · exact inv.nonNon
  · intro p r d hmem
    have hpne : p ≠ pid := by
      rintro rfl
      rcases hmem with hmem | hmem
      · exact (hnin r d).1 hmem
      · exact (hnin r d).2 hmem
    rw [evCount_append_pk p pid t s.event_queue _ (by simp),
      inv.memEv p r d hmem, if_neg (fun h => hpne h.symm)]
  · intro p
    rw [evCount_append_pk p pid t s.event_queue _ (by simp)]
    by_cases hpe : pid = p
    · subst hpe
      rw [hev, if_pos rfl]
    · rw [if_neg hpe]
      have := inv.evCnt p
      omega

/-- `Simulator::handlePacketArrival` preserves the invariant for a
packet that sits in no queue and has no further pending event. -/
theorem Inv_handlePacketArrival (cfg : SimConfig) {s : SimState}
    (inv : Inv s) (pid : ℕ)
    (hpidN : pid < s.next_packet_id)
    (hnin : ∀ r d, pid ∉ (s.voqs r).local_voqs d ∧
      pid ∉ (s.voqs r).nonlocal_voqs d)
    (hev : evCount pid s.event_queue = 0) :
    Inv (handlePacketArrival cfg s pid) := by
  simp only [handlePacketArrival]
  split
  next hcond =>
    rw [enqueue_NONLOCAL]
    rcases enqueueNonlocal_cases (s.voqs (s.packets pid).current_rack) pid
        (s.packets pid).final_dst with hc | hc
    · rw [hc]
      dsimp only
      rw [if_neg (by decide)]
      refine Inv_updatePacket inv pid { s.packets pid with current_dst := (s.packets pid).final_dst, dropped := true } ?_ ?_ rfl rfl hnin hev ?_ (fun _ => rfl)
      · dsimp only
        rw [Function.update_eq_self]
      · dsimp only
        rw [Function.update_idem]
      · exact inv.hopLe pid
    · rw [hc]
      dsimp only
      rw [if_pos rfl]
      have happ : Inv { s with
          packets := Function.update s.packets pid
            { s.packets pid with
                current_dst := (s.packets pid).final_dst },
          voqs := Function.update s.voqs (s.packets pid).current_rack
            { s.voqs (s.packets pid).current_rack with
                nonlocal_voqs := Function.update
                  (s.voqs (s.packets pid).current_rack).nonlocal_voqs
                  (s.packets pid).final_dst
                  ((s.voqs (s.packets pid).current_rack).nonlocal_voqs
                    (s.packets pid).final_dst ++ [pid]),
                total_packets := (s.voqs
                  (s.packets pid).current_rack).total_packets + 1 } } :=
        Inv_appendNonlocal inv pid (s.packets pid).current_rack
          (s.packets pid).final_dst _ _ rfl rfl rfl rfl rfl rfl
          hpidN hnin hev hcond.1 rfl
      split
      · exact happ
      · exact Inv_startTransmission cfg happ _
  next hcond =>
    split
    · exact inv
    · exact Inv_startTransmission cfg inv _

/-- `Simulator::handlePacketTransmissionComplete` preserves the
invariant for a transmitting packet (one whose pending event was just
popped: in no queue, event-free, at hop 0, or at hop 1 already headed
for its final destination). -/
theorem Inv_handlePacketTransmissionComplete (cfg : SimConfig)
    {s : SimState} (inv : Inv s) (pid : ℕ)
    (hpidN : pid < s.next_packet_id)
    (htx : (s.packets pid).hop_count = 0 ∨
      ((s.packets pid).hop_count = 1 ∧
        (s.packets pid).current_dst = (s.packets pid).final_dst))
    (hnin : ∀ r d, pid ∉ (s.voqs r).local_voqs d ∧
      pid ∉ (s.voqs r).nonlocal_voqs d)
    (hev : evCount pid s.event_queue = 0) :
    Inv (handlePacketTransmissionComplete cfg s pid) := by
  have hle1 : (s.packets pid).hop_count ≤ 1 := by
    rcases htx with h | ⟨h, _⟩ <;> omega
  simp only [handlePacketTransmissionComplete]
  split
  next hdeliv =>
    apply Inv_startTransmission
    refine Inv_updatePacket inv pid _ rfl rfl rfl rfl hnin hev ?_
      (fun _ => hdeliv)
    show (s.packets pid).hop_count + 1 ≤ 2
    omega
  next hndeliv =>
    have hh0 : (s.packets pid).hop_count = 0 := by
      rcases htx with h | ⟨h, hcd⟩
      · exact h
      · exact absurd hcd hndeliv
    by_cases harr : s.current_time_us + cfg.propagation_delay_us
        ≤ s.end_time_us
    · rw [if_pos harr]
      apply Inv_startTransmission
      refine Inv_forward inv pid _
        (s.current_time_us + cfg.propagation_delay_us)
        rfl rfl rfl rfl hpidN hnin hev ?_ rfl hndeliv
      show (s.packets pid).hop_count + 1 = 1
      omega
    · rw [if_neg harr]
      apply Inv_startTransmission
      refine Inv_updatePacket inv pid _ rfl rfl rfl rfl hnin hev ?_ ?_
      · show (s.packets pid).hop_count + 1 ≤ 2
        omega
      · intro h2
        have h3 : (s.packets pid).hop_count + 1 = 2 := h2
        omega

/-- One main-loop iteration preserves the invariant. -/
theorem Inv_runStep (cfg : SimConfig) {s : SimState} (inv : Inv s)
    {e : Event} {s' : SimState} (h : runStep cfg s = some (e, s')) :
    Inv s' := by
  unfold runStep at h
  rcases hpop : popMin s.event_queue with _ | ⟨evt, rest⟩
  · rw [hpop] at h
    cases h
  · rw [hpop] at h
    dsimp only at h
    split at h
    case isTrue => cases h
    case isFalse hlt =>
      simp only [Option.some.injEq, Prod.mk.injEq] at h
      obtain ⟨he1, he2⟩ := h
      rw [← he2]
      have hperm := popMin_perm hpop
      have hepop : evt ∈ s.event_queue :=
        hperm.mem_iff.mpr (List.mem_cons_self _ _)
      have inv1 :
          Inv { s with event_queue := rest, current_time_us := evt.time_us } :=
        Inv_popped inv hperm rfl rfl rfl rfl
      cases hty : evt.type with
      | FLOW_ARRIVAL =>
        exact Inv_handleFlowArrival cfg inv1 evt.id
      | PACKET_ARRIVAL =>
        have hpa := inv.paEv evt hepop hty
        have hfacts := popped_packet_facts inv hperm
          (by rw [hty]; intro hc; cases hc)
        exact Inv_handlePacketArrival cfg inv1 evt.id hpa.1 hfacts.1 hfacts.2
      | PACKET_TRANSMISSION_COMPLETE =>
        have htx := inv.txEv evt hepop hty
        have hfacts := popped_packet_facts inv hperm
          (by rw [hty]; intro hc; cases hc)
        exact Inv_handlePacketTransmissionComplete cfg inv1 evt.id htx.1
          htx.2 hfacts.1 hfacts.2

/-- The main loop preserves the invariant for any fuel. -/
theorem Inv_runSim (cfg : SimConfig) : ∀ (fuel : ℕ) {s : SimState},
    Inv s → Inv (runSim cfg fuel s) := by
  intro fuel
  induction fuel with
  | zero =>
    intro s inv
    exact inv
  | succ n ih =>
    intro s inv
    rw [runSim]
    rcases hstep : runStep cfg s with _ | ⟨e, s'⟩
    · exact inv
    · exact ih (Inv_runStep cfg inv hstep)

/-- The initial state satisfies the invariant: empty queues, default
(hop-0) registry entries, and only `FLOW_ARRIVAL` events pending. -/
theorem Inv_initState (cfg : SimConfig) (flow_list : List Flow)
    (oracle : ℕ → ℕ) : Inv (initState cfg flow_list oracle) := by
  have hqev : ∀ e ∈ (initState cfg flow_list oracle).event_queue,
      e.type = EventType.FLOW_ARRIVAL := by
    intro e he
    rcases List.mem_map.mp he with ⟨fl, _, rfl⟩
    rfl
  have hev0 : ∀ p,
      evCount p (initState cfg flow_list oracle).event_queue = 0 := by
    intro p
    unfold evCount
    rw [List.countP_eq_zero]
    intro e he hcon
    simp only [Bool.and_eq_true, Bool.or_eq_true, beq_iff_eq] at hcon
    rcases hcon with ⟨hty | hty, _⟩ <;> rw [hqev e he] at hty <;> cases hty
  refine ⟨?_, ?_, ?_, ?_, ?_, ?_, ?_, ?_, ?_, ?_, ?_, ?_, ?_⟩
  · intro p r d hmem
    cases hmem
  · intro p r d hmem
    cases hmem
  · intro e he hty
    rw [hqev e he] at hty
    cases hty
  · intro e he hty
    rw [hqev e he] at hty
    cases hty
  · intro p
    show (0 : ℕ) ≤ 2
    omega
  · intro p hp2
    cases hp2
  · intro p r d
    show List.count p [] ≤ 1
    simp
  · intro p r d
    show List.count p [] ≤ 1
    simp
  · intro p r d r' d' h1 _
    cases h1
  · intro p r d r' d' h1 _
    cases h1
  · intro p r d r' d' h1 _
    cases h1
  · intro p r d hmem
    rcases hmem with hmem | hmem <;> cases hmem
  · intro p
    rw [hev0 p]
    omega

/-- C3, amended.  At every event boundary of every run — any
configuration, flow list, oracle stream and fuel — every packet has
`hop_count ≤ 2`, and a packet with `hop_count = 2` has
`current_dst = final_dst` and is finished: it sits in no VOQ and has no
pending event, so it makes no further transitions.  (The original
claim's `current_rack = final_dst` is refuted by `C3_counterexample`:
delivery never updates `current_rack`.) -/
theorem C3_amended (cfg : SimConfig) (flow_list : List Flow)
    (oracle : ℕ → ℕ) (fuel pid : ℕ) :
    ((runSim cfg fuel (initState cfg flow_list oracle)).packets
        pid).hop_count ≤ 2 ∧
    (((runSim cfg fuel (initState cfg flow_list oracle)).packets
        pid).hop_count = 2 →
      ((runSim cfg fuel (initState cfg flow_list oracle)).packets
          pid).current_dst =
        ((runSim cfg fuel (initState cfg flow_list oracle)).packets
          pid).final_dst ∧
      (∀ r d, pid ∉ ((runSim cfg fuel
            (initState cfg flow_list oracle)).voqs r).local_voqs d ∧
        pid ∉ ((runSim cfg fuel
            (initState cfg flow_list oracle)).voqs r).nonlocal_voqs d) ∧
      evCount pid
        (runSim cfg fuel (initState cfg flow_list oracle)).event_queue
        = 0) := by
  have inv := Inv_runSim cfg fuel (Inv_initState cfg flow_list oracle)
  refine ⟨inv.hopLe pid, fun h2 => ⟨inv.hopTwo pid h2, ?_, ?_⟩⟩
  · intro r d
    constructor
    · intro hmem
      have := (inv.localMem pid r d hmem).2
      omega
    · intro hmem
      have := (inv.nonlocalMem pid r d hmem).2.1
      omega
  · unfold evCount
    rw [List.countP_eq_zero]
    intro e hmem hcon
    simp only [Bool.and_eq_true, Bool.or_eq_true, beq_iff_eq] at hcon
    obtain ⟨hty | hty, hid⟩ := hcon
    · have := (inv.paEv e hmem hty).2.1
      rw [hid] at this
      omega
    · have h3 := (inv.txEv e hmem hty).2
      rw [hid] at h3
      rcases h3 with h3 | ⟨h3, _⟩ <;> omega

/-- Witness for C3's amended claim: in the concrete C3 run, packet 1 —
delivered with `hop_count = 2` — indeed heads for its final
destination, sits in no VOQ and has no pending event. -/
theorem C3_amended_witness :
    (c3State.packets 1).current_dst = (c3State.packets 1).final_dst ∧
    (∀ r d, 1 ∉ (c3State.voqs r).local_voqs d ∧
      1 ∉ (c3State.voqs r).nonlocal_voqs d) ∧
    evCount 1 c3State.event_queue = 0 :=
  (C3_amended cfgC3 flowsC3 (fun _ => 3) 4 1).2
    (by with_unfolding_all decide)

/-! ## Flow CSV save/load (`WorkloadGenerator::saveFlowsToFile` /
`loadFlowsFromFile`)

`file << flow.start_time` writes the `double` with the stream's
defaults: `defaultfloat`, precision 6 — `printf` `%g`: the value
rounded to 6 significant decimal digits (ties to even), trailing
zeros removed, fixed form when the decimal exponent lies in
`[-4, 6)` and scientific form (`d.ddddde±dd`, at least two exponent
digits) otherwise.  The integer fields print in plain decimal.  A file
is a list of lines; a line a list of characters. -/

/-- The decimal digit character for a value (values ≥ 9 clamp — the
formatter only passes digits). -/
def digitChar : ℕ → Char
  | 0 => '0'
  | 1 => '1'
  | 2 => '2'
  | 3 => '3'
  | 4 => '4'
  | 5 => '5'
  | 6 => '6'
  | 7 => '7'
  | 8 => '8'
  | _ => '9'

/-- Decimal numeral of `n`, most significant digit first (fuel-driven;
`natNumeral` supplies enough fuel). -/
def natNumeralAux : ℕ → ℕ → List Char
  | 0, _ => []
  | fuel + 1, n =>
    if n = 0 then []
    else natNumeralAux fuel (n / 10) ++ [digitChar (n % 10)]

/-- `ostream << n` for an unsigned integer. -/
def natNumeral (n : ℕ) : List Char :=
  if n = 0 then ['0'] else natNumeralAux (n + 1) n

/-- Number of decimal digits of `n` (0 for 0), fuel-driven. -/
def decDigitsAux : ℕ → ℕ → ℕ
  | 0, _ => 0
  | fuel + 1, n => if n = 0 then 0 else decDigitsAux fuel (n / 10) + 1

def decDigits (n : ℕ) : ℕ := decDigitsAux (n + 1) n

/-- Round to the nearest integer, ties to even (the binary-to-decimal
conversion of glibc rounds the exact value this way). -/
def roundHalfEven (x : ℚ) : ℤ :=
  let f := ⌊x⌋
  let r := x - (f : ℚ)
  if r < 1 / 2 then f
  else if 1 / 2 < r then f + 1
  else if f % 2 = 0 then f else f + 1

/-- The decimal exponent of a positive rational: the unique `e` with
`10^e ≤ q < 10^(e+1)`. -/
def decExp (q : ℚ) : ℤ :=
  if 1 ≤ q then (decDigits (q.num.toNat / q.den) : ℤ) - 1
  else -(decDigits ((q.den - 1) / q.num.toNat) : ℤ)

/-- The six digits of a six-digit number, most significant first. -/
def sixDigits (m : ℕ) : List ℕ :=
  [m / 100000 % 10, m / 10000 % 10, m / 1000 % 10, m / 100 % 10,
   m / 10 % 10, m % 10]

/-- Remove trailing zero digits. -/
def stripTrailing (l : List ℕ) : List ℕ :=
  (l.reverse.dropWhile (fun d => d == 0)).reverse

/-- Exponent digits of `%g`: at least two. -/
def expChars (m : ℕ) : List Char :=
  if m < 10 then ['0', digitChar m] else natNumeral m

/-- Render 6 significant digits `ds` at decimal exponent `e1`: fixed
form in `[-4, 6)`, scientific form otherwise, trailing fraction zeros
removed. -/
def render6 (ds : List ℕ) (e1 : ℤ) : List Char :=
  if -4 ≤ e1 ∧ e1 < 6 then
    if 0 ≤ e1 then
      let k := e1.toNat + 1
      let fp := stripTrailing (ds.drop k)
      (ds.take k).map digitChar ++
        (if fp = [] then [] else '.' :: fp.map digitChar)
    else
      let fp := stripTrailing ds
      ['0', '.'] ++ List.replicate ((-e1).toNat - 1) '0' ++
        fp.map digitChar
  else
    let fp := stripTrailing (ds.drop 1)
    (ds.take 1).map digitChar ++
      (if fp = [] then [] else '.' :: fp.map digitChar) ++
      'e' :: (if e1 < 0 then '-' else '+') :: expChars e1.natAbs

/-- `%g` with precision 6 on a positive rational: round to six
significant digits (carrying into the exponent when rounding
overflows), then render. -/
def fmtPos (q : ℚ) : List Char :=
  let e := decExp q
  let n := roundHalfEven (q * 10 ^ (5 - e))
  let a := if n = 10 ^ 6 then ((10 : ℤ) ^ 5, e + 1) else (n, e)
  render6 (sixDigits a.1.toNat) a.2

/-- `ostream << d` for a `double` at default precision (`%g`, 6
significant digits). -/
def fmtG6 (q : ℚ) : List Char :=
  if q = 0 then ['0']
  else if q < 0 then '-' :: fmtPos (-q)
  else fmtPos q

/-- Join CSV fields with commas. -/
def joinFields : List (List Char) → List Char
  | [] => []
  | [f] => f
  | f :: rest => f ++ ',' :: joinFields rest

/-- Repeated `getline(ss, field, ',')`: split a line at every comma
(fuel-driven; a fuel of the line's length always suffices). -/
def splitFields : ℕ → List Char → List (List Char)
  | 0, l => [l]
  | fuel + 1, l =>
    match splitAtChar ',' l with
    | (f, none) => [f]
    | (f, some rest) => f :: splitFields fuel rest

/-- The `flow_type` column. -/
def typeStr : FlowType → List Char
  | .BULK => "bulk".data
  | .LOW_LATENCY => "low_latency".data

/-- One data line of `saveFlowsToFile`. -/
def flowLine (fl : Flow) : List Char :=
  joinFields [natNumeral fl.id, natNumeral fl.src_rack,
    natNumeral fl.dst_rack, natNumeral fl.src_host,
    natNumeral fl.dst_host, natNumeral fl.size_bytes,
    fmtG6 fl.start_time, typeStr fl.type]

/-- The header line of `saveFlowsToFile`. -/
def headerLine : List Char :=
  "flow_id,src_rack,dst_rack,src_host,dst_host,size_bytes,start_time_ms,flow_type".data

/-- `WorkloadGenerator::saveFlowsToFile`: header, then one line per
flow. -/
def saveFlowsToFile (flows : List Flow) : List (List Char) :=
  headerLine :: flows.map flowLine

/-- One iteration of the load loop: split the line at commas and parse
the eight columns (`stoull`/`stoi`/`stod`); `completed`,
`packets_sent` and `packets_received` are reset, the other fields keep
the default-constructed values. -/
def parseFlowLine (l : List Char) : Flow :=
  let fs := splitFields l.length l
  { id := parseNatChars (fs.getD 0 []),
    src_rack := parseNatChars (fs.getD 1 []),
    dst_rack := parseNatChars (fs.getD 2 []),
    src_host := parseNatChars (fs.getD 3 []),
    dst_host := parseNatChars (fs.getD 4 []),
    size_bytes := parseNatChars (fs.getD 5 []),
    start_time := parseQchars (fs.getD 6 []),
    type := if fs.getD 7 [] = "bulk".data then .BULK else .LOW_LATENCY,
    completed := false, packets_sent := 0, packets_received := 0 }

/-- `WorkloadGenerator::loadFlowsFromFile`: skip the header, parse
every remaining line. -/
def loadFlowsFromFile (lines : List (List Char)) : List Flow :=
  match lines with
  | [] => []
  | _ :: rest => rest.map parseFlowLine

/-! ### Round trip of the CSV encoding -/

theorem digitChar_ne_comma (d : ℕ) : digitChar d ≠ ',' := by
  unfold digitChar
  split <;> decide

theorem digitVal_digitChar {d : ℕ} (hd : d < 10) :
    digitVal (digitChar d) = d := by
  interval_cases d <;> rfl

theorem comma_notMem_natNumeralAux (fuel : ℕ) : ∀ n,
    ',' ∉ natNumeralAux fuel n := by
  induction fuel with
  | zero =>
    intro n
    simp [natNumeralAux]
  | succ f ih =>
    intro n
    simp only [natNumeralAux]
    split
    · simp
    · intro hmem
      rcases List.mem_append.mp hmem with h | h
      · exact ih _ h
      · rcases List.mem_singleton.mp h with h2
        exact digitChar_ne_comma _ h2.symm

theorem comma_notMem_natNumeral (n : ℕ) : ',' ∉ natNumeral n := by
  unfold natNumeral
  split
  · decide
  · exact comma_notMem_natNumeralAux _ _

theorem comma_notMem_map_digitChar (l : List ℕ) :
    ',' ∉ l.map digitChar := by
  intro h
  rcases List.mem_map.mp h with ⟨d, _, hd⟩
  exact digitChar_ne_comma d hd

theorem comma_notMem_expChars (m : ℕ) : ',' ∉ expChars m := by
  unfold expChars
  split
  · intro h
    rcases List.mem_cons.mp h with h | h
    · cases h
    · rcases List.mem_singleton.mp h with h2
      exact digitChar_ne_comma _ h2.symm
  · exact comma_notMem_natNumeral m

theorem comma_notMem_render6 (ds : List ℕ) (e1 : ℤ) :
    ',' ∉ render6 ds e1 := by
  intro h
  simp only [render6] at h
  split at h
  · split at h
    · rcases List.mem_append.mp h with h | h
      · exact comma_notMem_map_digitChar _ h
      · split at h
        · cases h
        · rcases List.mem_cons.mp h with h | h
          · exact absurd h (by decide)
          · exact comma_notMem_map_digitChar _ h
    · rcases List.mem_append.mp h with h | h
      · rcases List.mem_append.mp h with h | h
        · rcases List.mem_cons.mp h with h | h
          · exact absurd h (by decide)
          · rcases List.mem_singleton.mp h with h2
            exact absurd h2 (by decide)
        · rcases List.mem_replicate.mp h with ⟨_, h2⟩
          exact absurd h2 (by decide)
      · exact comma_notMem_map_digitChar _ h
  · rcases List.mem_append.mp h with h | h
    · rcases List.mem_append.mp h with h | h
      · exact comma_notMem_map_digitChar _ h
      · split at h
        · cases h
        · rcases List.mem_cons.mp h with h | h
          · exact absurd h (by decide)
          · exact comma_notMem_map_digitChar _ h
    · rcases List.mem_cons.mp h with h | h
      · exact absurd h (by decide)
      · rcases List.mem_cons.mp h with h | h
        · split at h
          · exact absurd h (by decide)
          · exact absurd h (by decide)
        · exact comma_notMem_expChars _ h

theorem comma_notMem_fmtPos (q : ℚ) : ',' ∉ fmtPos q := by
  simp only [fmtPos]
  exact comma_notMem_render6 _ _

theorem comma_notMem_fmtG6 (q : ℚ) : ',' ∉ fmtG6 q := by
  unfold fmtG6
  split
  · decide
  · split
    · intro h
      rcases List.mem_cons.mp h with h | h
      · cases h
      · exact comma_notMem_fmtPos _ h
    · exact comma_notMem_fmtPos q

theorem comma_notMem_typeStr (t : FlowType) : ',' ∉ typeStr t := by
  cases t <;> decide

theorem splitAtChar_not_mem {c : Char} : ∀ {l : List Char}, c ∉ l →
    splitAtChar c l = (l, none) := by
  intro l
  induction l with
  | nil =>
    intro _
    rfl
  | cons x xs ih =>
    intro h
    have hx : ¬ x = c := fun he => h (he ▸ List.mem_cons_self _ _)
    simp only [splitAtChar, if_neg hx]
    rw [ih (fun hm => h (List.mem_cons_of_mem _ hm))]

theorem splitAtChar_append {c : Char} : ∀ {f : List Char}, c ∉ f →
    ∀ rest, splitAtChar c (f ++ c :: rest) = (f, some rest) := by
  intro f
  induction f with
  | nil =>
    intro _ rest
    simp [splitAtChar]
  | cons x xs ih =>
    intro h rest
    have hx : ¬ x = c := fun he => h (he ▸ List.mem_cons_self _ _)
    simp only [List.cons_append, splitAtChar, if_neg hx, List.append_eq]
    rw [ih (fun hm => h (List.mem_cons_of_mem _ hm)) rest]

theorem joinFields_length : ∀ fs : List (List Char),
    fs.length ≤ (joinFields fs).length + 1 := by
  intro fs
  induction fs with
  | nil => simp
  | cons f rest ih =>
    cases rest with
    | nil => simp [joinFields]
    | cons g rest2 =>
      simp only [joinFields, List.length_append, List.length_cons] at ih ⊢
      omega

theorem splitFields_join : ∀ (fs : List (List Char)) (fuel : ℕ),
    fs.length ≤ fuel + 1 → (∀ f ∈ fs, ',' ∉ f) → fs ≠ [] →
    splitFields fuel (joinFields fs) = fs := by
  intro fs
  induction fs with
  | nil =>
    intro fuel _ _ hne
    exact absurd rfl hne
  | cons f rest ih =>
    intro fuel hlen hmem _
    cases rest with
    | nil =>
      cases fuel with
      | zero => rfl
      | succ fu =>
        have h1 := splitAtChar_not_mem (hmem f (List.mem_cons_self _ _))
        simp [splitFields, joinFields, h1]
    | cons g rest2 =>
      cases fuel with
      | zero =>
        simp at hlen
      | succ fu =>
        have hco : ',' ∉ f := hmem f (List.mem_cons_self _ _)
        have h1 := splitAtChar_append hco (joinFields (g :: rest2))
        simp only [joinFields, splitFields, h1]
        rw [ih fu (by simp at hlen ⊢; omega)
          (fun x hx => hmem x (List.mem_cons_of_mem _ hx)) (by simp)]

theorem parseFold_natNumeralAux : ∀ (fuel n a : ℕ), n < fuel →
    List.foldl (fun a c => a * 10 + digitVal c) a (natNumeralAux fuel n)
      = a * 10 ^ (natNumeralAux fuel n).length + n := by
  intro fuel
  induction fuel with
  | zero =>
    intro n a h
    omega
  | succ f ih =>
    intro n a h
    by_cases h0 : n = 0
    · simp [natNumeralAux, h0]
    · have hd : n / 10 < f := by omega
      simp only [natNumeralAux, if_neg h0, List.foldl_append,
        List.length_append, List.foldl_cons, List.foldl_nil,
        List.length_cons, List.length_nil]
      rw [ih (n / 10) a hd,
        digitVal_digitChar (Nat.mod_lt n (by omega)), pow_succ]
      have h2 : n / 10 * 10 + n % 10 = n := by omega
      rw [add_mul, add_assoc, h2, ← mul_assoc]

theorem parseNatChars_natNumeral (n : ℕ) :
    parseNatChars (natNumeral n) = n := by
  unfold natNumeral parseNatChars
  split
  · simp_all
    rfl
  · rw [parseFold_natNumeralAux (n + 1) n 0 (by omega)]
    omega

/-- Parsing one saved line: the integer fields and the type come back
exactly; `start_time` comes back as the parse of its 6-significant-
digit rendering; the bookkeeping fields are reset. -/
theorem parseFlowLine_flowLine (fl : Flow) :
    parseFlowLine (flowLine fl) = { fl with
      start_time := parseQchars (fmtG6 fl.start_time),
      completion_time := 0, packet_ids := [], packets_sent := 0,
      packets_received := 0, completed := false } := by
  have hsplit : splitFields (flowLine fl).length (flowLine fl) =
      [natNumeral fl.id, natNumeral fl.src_rack, natNumeral fl.dst_rack,
       natNumeral fl.src_host, natNumeral fl.dst_host,
       natNumeral fl.size_bytes, fmtG6 fl.start_time, typeStr fl.type] := by
    refine splitFields_join _ _ ?_ ?_ (by simp)
    · have := joinFields_length [natNumeral fl.id, natNumeral fl.src_rack,
        natNumeral fl.dst_rack, natNumeral fl.src_host,
        natNumeral fl.dst_host, natNumeral fl.size_bytes,
        fmtG6 fl.start_time, typeStr fl.type]
      simpa [flowLine] using this
    · intro f hf
      simp only [List.mem_cons, List.not_mem_nil, or_false] at hf
      rcases hf with rfl | rfl | rfl | rfl | rfl | rfl | rfl | rfl
      · exact comma_notMem_natNumeral _
      · exact comma_notMem_natNumeral _
      · exact comma_notMem_natNumeral _
      · exact comma_notMem_natNumeral _
      · exact comma_notMem_natNumeral _
      · exact comma_notMem_natNumeral _
      · exact comma_notMem_fmtG6 _
      · exact comma_notMem_typeStr _
  simp only [parseFlowLine, hsplit]
  simp only [List.getD_cons_zero, List.getD_cons_succ,
    parseNatChars_natNumeral]
  cases hty : fl.type
  · rw [if_pos (by decide)]
  · rw [if_neg (by decide)]

/-- C9.  The flow CSV round trip: loading a saved flow list gives back,
per flow, the integer fields `id`, `src_rack`, `dst_rack`, `src_host`,
`dst_host`, `size_bytes` and the `flow_type` column exactly, while
`start_time` comes back as `stod` applied to the stream's default
6-significant-digit rendering of the original — so `start_time` is
preserved exactly when that rendering is (e.g. 1.5), and altered
otherwise (`C9_counterexample`: 1234.5625 → "1234.56" → 1234.56). -/
theorem C9_amended (flows : List Flow) :
    loadFlowsFromFile (saveFlowsToFile flows) = flows.map fun fl =>
      { fl with
        start_time := parseQchars (fmtG6 fl.start_time),
        completion_time := 0, packet_ids := [], packets_sent := 0,
        packets_received := 0, completed := false } := by
  simp only [loadFlowsFromFile, saveFlowsToFile, List.map_map]
  exact List.map_congr_left fun fl _ => parseFlowLine_flowLine fl

/-- The flow written with `start_time = 1234.5625` — a `double`-exact
value (`19753/16`). -/
def flC9 : Flow :=
  { id := 0, src_rack := 1, dst_rack := 2, src_host := 3, dst_host := 4,
    size_bytes := 3000, start_time := 19753 / 16 }

set_option maxRecDepth 2000 in
/-- C9, counterexample.  Saving a flow with `start_time = 1234.5625`
and loading the file back yields `start_time = 1234.56 = 30864/25`
(`file << start_time` rounds to 6 significant digits), so the loaded
list is not field-equal to the original. -/
theorem C9_counterexample :
    ((loadFlowsFromFile (saveFlowsToFile [flC9])).map
        (fun fl => (fl.start_time.num, fl.start_time.den)))
      = [(30864, 25)]
    ∧ (flC9.start_time.num, flC9.start_time.den) = (19753, 16)
    ∧ (loadFlowsFromFile (saveFlowsToFile [flC9])).map Flow.start_time
        ≠ [flC9.start_time] := by
  refine ⟨by with_unfolding_all decide, by with_unfolding_all decide, ?_⟩
  intro h
  have h2 := congrArg (fun l => (l.getD 0 0).num) h
  revert h2
  with_unfolding_all decide

/-- A flow whose `start_time` (1.5) renders exactly. -/
def flC9w : Flow :=
  { id := 7, src_rack := 1, dst_rack := 2, src_host := 0, dst_host := 5,
    size_bytes := 900, start_time := 3 / 2 }

set_option maxRecDepth 2000 in
/-- Witness for C9's amended claim: a concrete save-then-load that is
the identity — `start_time = 1.5` renders as `"1.5"` and parses back
exactly, and every other field returns unchanged. -/
theorem C9_amended_witness :
    loadFlowsFromFile (saveFlowsToFile [flC9w]) = [flC9w] ∧
    flC9w.start_time = 3 / 2 := by
  constructor
  · rw [C9_amended [flC9w]]
    with_unfolding_all decide
  · rfl

end RotorSim
